import Mathlib

/-! docker-flow-proxy: `proxy/util.go`

A shallow embedding of the pure core of `proxy/util.go` (the reconfiguration
validator `IsValidReconf`, the engine runner `cmdRunHa`, the wildcard matcher
`Glob`, the resolution of settings by `getSecretOrEnvVar` and
`getSecretOrEnvVarSplit`, the polling loop `waitForPidToUpdate` and the name
cleaner `replaceNonAlphabetAndNumbers`) together with theorems about it.

A Go string, and likewise the content of a file, is modelled by the list of its
characters.  The functions embedded here test strings for emptiness, compare
them for equality, concatenate them, search one in another, cut them at
positions found by such a search, and classify or map single characters, so
nothing depends on how a character is encoded.
-/

namespace Proxy

/-- A Go string: the sequence of its characters. -/
abbrev GoString := List Char

/-! ## Library functions used by the source -/

/-- Comparison of one pair of runes inside Go's `strings.EqualFold`: equal runes
match; otherwise the pair is ordered, an all-ASCII pair matches exactly when the
smaller one is an upper-case letter and the larger one is the same letter in
lower case, and any other pair is handed to the Unicode simple-folding orbit
walk.  That walk is table driven and is not part of this repository, so its
verdict is the parameter `unicodeFold` (called with the smaller rune first). -/
def runeFoldEq (unicodeFold : Char → Char → Bool) (sr tr : Char) : Bool :=
  if tr = sr then true
  else
    let lo := if tr < sr then tr else sr
    let hi := if tr < sr then sr else tr
    if hi.toNat < 128 then
      decide (65 ≤ lo.toNat ∧ lo.toNat ≤ 90 ∧ hi.toNat = lo.toNat + 32)
    else unicodeFold lo hi

/-- Go's `strings.EqualFold`: the two strings have the same number of runes and
the runes match pairwise under `runeFoldEq`. -/
def EqualFold (unicodeFold : Char → Char → Bool) : GoString → GoString → Bool
  | [], [] => true
  | [], _ :: _ => false
  | _ :: _, [] => false
  | a :: s, b :: t => if runeFoldEq unicodeFold a b then EqualFold unicodeFold s t else false

/-- A folding table with no non-ASCII pair, for evaluating ASCII examples. -/
def asciiOnlyFold : Char → Char → Bool := fun _ _ => false

/-! ## `IsValidReconf` -/

/-- Modelled from the spec: the type declaration of a destination rule is not in
`util.go`.  The fields are the ones `IsValidReconf` reads: `reqMode`,
`servicePath`, `serviceDomain`, `srcPort` (a Go `int`) and `port`. -/
structure ServiceDest where
  ReqMode : GoString
  ServicePath : GoString
  ServiceDomain : GoString
  SrcPort : Int
  Port : GoString
  deriving DecidableEq, Repr

/-- Modelled from the spec: the type declaration of a service is not in
`util.go`.  A service has a name and an ordered list of destinations. -/
structure Service where
  ServiceName : GoString
  ServiceDest : List ServiceDest
  deriving DecidableEq, Repr

/-- `http.StatusOK`. -/
def StatusOK : Int := 200
/-- `http.StatusBadRequest`. -/
def StatusBadRequest : Int := 400
/-- `http.StatusConflict`. -/
def StatusConflict : Int := 409

/-- `IsValidReconf` of `util.go`.  The result is `none` when the Go code
would fail with an index out of range at `service.ServiceDest[0]`, and
`some (statusCode, msg)` otherwise. -/
def IsValidReconf (unicodeFold : Char → Char → Bool) (service : Service) :
    Option (Int × GoString) :=
  if service.ServiceName.length = 0 then
    some (StatusBadRequest, "serviceName parameter is mandatory.".toList)
  else
    match service.ServiceDest[0]? with
    | none => none
    | some dest0 =>
      let reqMode : GoString :=
        if dest0.ReqMode.length > 0 then dest0.ReqMode else "http".toList
      let hasPath := decide (dest0.ServicePath.length > 0)
      let hasSrcPort := decide (dest0.SrcPort > 0)
      let hasPort := decide (dest0.Port.length > 0)
      let hasDomain := decide (dest0.ServiceDomain.length > 0)
      if EqualFold unicodeFold reqMode "http".toList then
        if !hasPath && !hasDomain then
          some (StatusConflict,
            "When using reqMode http, servicePath or serviceDomain are mandatory".toList)
        else some (StatusOK, [])
      else if !hasSrcPort || !hasPort then
        some (StatusBadRequest,
          "When NOT using reqMode http (e.g. tcp), srcPort and port parameters are mandatory.".toList)
      else some (StatusOK, [])

/-- The effective request mode of a destination: its `reqMode`, or `"http"`
when that is empty. -/
def effectiveMode (d : ServiceDest) : GoString :=
  if d.ReqMode.length > 0 then d.ReqMode else "http".toList

/-- The effective mode of a destination is http, ignoring case. -/
def isHttpMode (unicodeFold : Char → Char → Bool) (d : ServiceDest) : Bool :=
  EqualFold unicodeFold (effectiveMode d) "http".toList

/-! ## `cmdRunHa` -/

/-- The value of `err := cmd.Wait()` as `cmdRunHa` distinguishes it: `nil` (the
process ran and exited with status zero), an `*exec.ExitError` (the process ran
and ended otherwise; `exitStatus` is what `waitStatus.ExitStatus()` reports,
`-1` for a process killed by a signal), or an error value of any other type
(the command was never started, or copying its output failed). -/
inductive WaitResult where
  | exited
  | exitError (exitStatus : Int)
  | otherError
  deriving DecidableEq, Repr

/-- What `cmdRunHa` writes to the operator-visible output besides the copied
streams: the `Exit Status:` line, or the misconfiguration warning with the
combined output. -/
inductive Printed where
  | exitStatus (status : Int)
  | warning (combinedOut : GoString)
  deriving DecidableEq, Repr

/-- The Go `error` returned by `cmdRunHa`: `nil`, or an error made by
`fmt.Errorf`.  The text of that error is `none` when its format string lies
outside the fragment of `fmt` modelled by `Errorf`. -/
inductive RunError where
  | nil
  | failure (text : Option GoString)
  deriving DecidableEq, Repr

/-- The characters that may stand between a `%` and its verb in a `fmt` format:
flags, digits of a width or precision, the precision dot, an argument index and
the `*` width. -/
def isDirectiveModifier (c : Char) : Bool :=
  c = '#' || c = '0' || c = '+' || c = '-' || c = ' ' || c.isDigit || c = '.' ||
    c = '[' || c = '*'

/-- Modelled from the documentation of Go's `fmt`: the text produced by
`fmt.Errorf(format)` called with a format and no operands.  Text outside
directives is copied; `%%` writes one `%`; a `%` ending the format writes
`%!(NOVERB)`; a `%` followed directly by a verb `c` finds no operand and writes
`%!c(MISSING)`.  A `%` followed by a flag, width, precision or argument index
is outside the modelled fragment and gives `none`. -/
def Errorf : GoString → Option GoString
  | [] => some []
  | c :: rest =>
    if c ≠ '%' then (Errorf rest).map (fun out => c :: out)
    else
      match rest with
      | [] => some "%!(NOVERB)".toList
      | verb :: rest2 =>
        if verb = '%' then (Errorf rest2).map (fun out => '%' :: out)
        else if isDirectiveModifier verb then none
        else (Errorf rest2).map (fun out => "%!".toList ++ verb :: "(MISSING)".toList ++ out)

/-- The value of `combinedOut`: `fmt.Sprintf` with the two `%s` operands
`outStr` and `errStr`. -/
def combinedOut (outStr errStr : GoString) : GoString :=
  "\nstdout:\n".toList ++ outStr ++ "\nstderr:\n".toList ++ errStr ++ "\n".toList

/-- `cmdRunHa` of `util.go`, from the point where `cmd.Wait()` has returned:
`w` is the error value of `Wait`, `outStr` and `errStr` the captured standard
output and standard error.  The result is what was printed and the returned
error. -/
def cmdRunHa (w : WaitResult) (outStr errStr : GoString) : List Printed × RunError :=
  let combined := combinedOut outStr errStr
  match w with
  | .exitError status => ([.exitStatus status], .failure (Errorf combined))
  | _ =>
    if errStr ≠ [] then ([.warning combined], .nil)
    else ([], .nil)

/-- `cmdValidateHa` of `util.go`. -/
def cmdValidateHa (w : WaitResult) (outStr errStr : GoString) : List Printed × RunError :=
  cmdRunHa w outStr errStr

/-! ## `Glob` -/

/-- Go's `strings.Split(s, sep)` for a separator `sep` of one character: the
pieces of `s` between the occurrences of `sep`, in order; `n` occurrences give
`n + 1` pieces, and the empty string gives one empty piece. -/
def Split (s : GoString) (sep : Char) : List GoString :=
  match s with
  | [] => [[]]
  | c :: cs =>
    if c = sep then [] :: Split cs sep
    else
      match Split cs sep with
      | [] => [[c]]
      | piece :: pieces => (c :: piece) :: pieces

/-- Go's `strings.HasPrefix`. -/
def HasPrefix (s pre : GoString) : Bool := pre.isPrefixOf s

/-- Go's `strings.HasSuffix`. -/
def HasSuffix (s suf : GoString) : Bool := suf.isSuffixOf s

/-- Go's `strings.Index`: the position of the first occurrence of `substr` in
`s`, or `-1` when there is none. -/
def Index (s substr : GoString) : Int :=
  match s with
  | [] => if substr.isPrefixOf [] then 0 else -1
  | c :: cs =>
    if substr.isPrefixOf (c :: cs) then 0
    else
      let r := Index cs substr
      if r < 0 then -1 else r + 1

/-- The Go slice expression `str[lo:]`: `none` when `lo` is out of range. -/
def sliceFrom (str : GoString) (lo : Int) : Option GoString :=
  if 0 ≤ lo ∧ lo ≤ (str.length : Int) then some (str.drop lo.toNat) else none

/-- How the `for` loop of `Glob` ends: by a run-time failure (an index or slice
out of range), by `return false`, or by running to its end with the remaining
string `str`. -/
inductive LoopExit where
  | failed
  | returnedFalse
  | finished (str : GoString)
  deriving DecidableEq, Repr

/-- The loop `for i := 0; i < end; i++` of `Glob`, started at index `i` with
`remaining = end - i` iterations to go and the current value of `str`. -/
def globLoop (parts : List GoString) (leadingGlob : Bool) :
    Nat → Nat → GoString → LoopExit
  | _, 0, str => .finished str
  | i, remaining + 1, str =>
    match parts[i]? with
    | none => .failed
    | some part =>
      let idx := Index str part
      if i = 0 ∧ leadingGlob = false ∧ idx ≠ 0 then .returnedFalse
      else if idx < 0 then .returnedFalse
      else
        match sliceFrom str (idx + (part.length : Int)) with
        | none => .failed
        | some str2 => globLoop parts leadingGlob (i + 1) remaining str2

/-- `Glob` of `util.go`.  The result is `none` when the Go code would fail at
run time, and `some b` when it returns `b`. -/
def Glob (pattern str : GoString) : Option Bool :=
  if pattern.length = 0 then some (decide (str = pattern))
  else if pattern = "*".toList then some true
  else
    let parts := Split pattern '*'
    if parts.length = 1 then some (decide (str = pattern))
    else
      let leadingGlob := HasPrefix pattern "*".toList
      let trailingGlob := HasSuffix pattern "*".toList
      let end_ := parts.length - 1
      match globLoop parts leadingGlob 0 end_ str with
      | .failed => none
      | .returnedFalse => some false
      | .finished rest =>
        match parts[end_]? with
        | none => none
        | some last => some (trailingGlob || HasSuffix rest last)

/-- The text of a pattern after its final `*` (the whole pattern when it has
no `*`). -/
def lastLiteral (pattern : GoString) : GoString :=
  (pattern.reverse.takeWhile (fun c => c ≠ '*')).reverse

/-- Go's `strings.LastIndex`: the position of the last occurrence of `substr`
in `s`, or `-1` when there is none; for an empty `substr` it is the length of
`s`. -/
def LastIndex (s substr : GoString) : Int :=
  match s with
  | [] => if substr.isPrefixOf [] then 0 else -1
  | c :: cs =>
    let r := LastIndex cs substr
    if 0 ≤ r then r + 1
    else if substr.isPrefixOf (c :: cs) then 0 else -1

/-- The loop of the matcher that is `Glob` except for one thing: it advances
past the last occurrence of each non-final segment (`strings.LastIndex` where
`Glob` has `strings.Index`). -/
def globLoopLast (parts : List GoString) (leadingGlob : Bool) :
    Nat → Nat → GoString → LoopExit
  | _, 0, str => .finished str
  | i, remaining + 1, str =>
    match parts[i]? with
    | none => .failed
    | some part =>
      let idx := LastIndex str part
      if i = 0 ∧ leadingGlob = false ∧ idx ≠ 0 then .returnedFalse
      else if idx < 0 then .returnedFalse
      else
        match sliceFrom str (idx + (part.length : Int)) with
        | none => .failed
        | some str2 => globLoopLast parts leadingGlob (i + 1) remaining str2

/-- The matcher the spec contrasts `Glob` with: the text of `Glob` with the last
occurrence of each non-final segment taken instead of the first. -/
def GlobLast (pattern str : GoString) : Option Bool :=
  if pattern.length = 0 then some (decide (str = pattern))
  else if pattern = "*".toList then some true
  else
    let parts := Split pattern '*'
    if parts.length = 1 then some (decide (str = pattern))
    else
      let leadingGlob := HasPrefix pattern "*".toList
      let trailingGlob := HasSuffix pattern "*".toList
      let end_ := parts.length - 1
      match globLoopLast parts leadingGlob 0 end_ str with
      | .failed => none
      | .returnedFalse => some false
      | .finished rest =>
        match parts[end_]? with
        | none => none
        | some last => some (trailingGlob || HasSuffix rest last)

/-- One evaluation of the slice expression `str[idx+len(parts[i]):]` in the loop
of `Glob`: the loop index, the value of `idx`, and the lengths of `parts[i]` and
of `str` at that moment. -/
structure SliceStep where
  i : Nat
  idx : Int
  partLen : Nat
  strLen : Nat
  deriving DecidableEq, Repr

/-- The loop of `Glob` once more, recording instead of the exit the slice
expressions the loop reaches, in the order in which it reaches them. -/
def globLoopSlices (parts : List GoString) (leadingGlob : Bool) :
    Nat → Nat → GoString → List SliceStep
  | _, 0, _ => []
  | i, remaining + 1, str =>
    match parts[i]? with
    | none => []
    | some part =>
      let idx := Index str part
      if i = 0 ∧ leadingGlob = false ∧ idx ≠ 0 then []
      else if idx < 0 then []
      else
        ⟨i, idx, part.length, str.length⟩ ::
          match sliceFrom str (idx + (part.length : Int)) with
          | none => []
          | some str2 => globLoopSlices parts leadingGlob (i + 1) remaining str2

/-- A pattern with its wildcards filled in: the first `*` is replaced by the
first string of `ws`, the second `*` by the second, and so on (a `*` for which
`ws` has no string left is replaced by the empty string). -/
def fillWildcards : GoString → List GoString → GoString
  | [], _ => []
  | c :: cs, ws =>
    if c = '*' then
      match ws with
      | [] => fillWildcards cs []
      | w :: rest => w ++ fillWildcards cs rest
    else c :: fillWildcards cs ws

/-- The candidate `str` is the pattern with each `*` replaced by some string. -/
def WildcardMatch (pattern str : GoString) : Prop :=
  ∃ ws : List GoString, ws.length = pattern.count '*' ∧ str = fillWildcards pattern ws

/-- A candidate tail against the segments that each follow a `*`: the tail is
some string, then the first segment, then a tail for the remaining segments;
with no segment left the tail is empty. -/
def StarMatch : List GoString → GoString → Prop
  | [], tail => tail = []
  | seg :: segs, tail => ∃ w rest : GoString, tail = w ++ seg ++ rest ∧ StarMatch segs rest

/-- The scan of `Glob` after its first segment, as a recursion over the
segments that follow a `*`: each segment but the last is looked up with `Index`
and the string is cut behind its first occurrence; the last segment is tested
with `HasSuffix`. -/
def greedyMatch : List GoString → GoString → Bool
  | [], str => decide (str = [])
  | [last], str => HasSuffix str last
  | seg :: seg2 :: segs, str =>
    if Index str seg < 0 then false
    else greedyMatch (seg2 :: segs) (str.drop (Index str seg + (seg.length : Int)).toNat)

/-- The end of `Glob` after its loop: a run-time failure, `return false` from
inside the loop, or the final `return` with the last segment. -/
def globFinish (parts : List GoString) (trailingGlob : Bool) : LoopExit → Option Bool
  | .failed => none
  | .returnedFalse => some false
  | .finished rest =>
    match parts[parts.length - 1]? with
    | none => none
    | some last => some (trailingGlob || HasSuffix rest last)

/-! ## `getSecretOrEnvVar` and `getSecretOrEnvVarSplit` -/

/-- Go's `strings.ToLower`: an ASCII upper-case letter becomes the same letter
in lower case, any other ASCII character is kept, and a non-ASCII rune is
mapped by the Unicode case tables.  Those tables are not part of this
repository and are the parameter `unicodeLower`. -/
def ToLower (unicodeLower : Char → Char) (s : GoString) : GoString :=
  s.map (fun c =>
    if c.toNat < 128 then
      if 65 ≤ c.toNat ∧ c.toNat ≤ 90 then Char.ofNat (c.toNat + 32) else c
    else unicodeLower c)

/-- Go's `strings.TrimRight(s, cutset)`: `s` without its trailing characters
that occur in `cutset`. -/
def TrimRight (s cutset : GoString) : GoString :=
  (s.reverse.dropWhile (fun c => cutset.contains c)).reverse

/-- Go's `strings.Replace(s, old, new, -1)` for an `old` of one character:
every occurrence of `old` in `s` is replaced by `new`. -/
def Replace (s : GoString) (old : Char) (new : GoString) : GoString :=
  match s with
  | [] => []
  | c :: cs => if c = old then new ++ Replace cs old new else c :: Replace cs old new

/-- `getSecretOrEnvVar` of `util.go`.  `readSecretsFile` gives the content of a
file, or `none` when reading it fails; `Getenv` is `os.Getenv`, the value of an
environment variable, empty when the variable is not set. -/
def getSecretOrEnvVar (unicodeLower : Char → Char)
    (readSecretsFile : GoString → Option GoString) (Getenv : GoString → GoString)
    (key defaultValue : GoString) : GoString :=
  let path := "/run/secrets/dfp_".toList ++ ToLower unicodeLower key
  match readSecretsFile path with
  | some content => TrimRight content "\n".toList
  | none =>
    if (Getenv key).length > 0 then Getenv key
    else defaultValue

/-- `getSecretOrEnvVarSplit` of `util.go`. -/
def getSecretOrEnvVarSplit (unicodeLower : Char → Char)
    (readSecretsFile : GoString → Option GoString) (Getenv : GoString → GoString)
    (key defaultValue : GoString) : GoString :=
  let value := getSecretOrEnvVar unicodeLower readSecretsFile Getenv key defaultValue
  if value.length > 0 then Replace value ',' "\n    ".toList
  else value

/-- A case table that keeps every non-ASCII rune, for evaluating ASCII
examples. -/
def asciiOnlyLower : Char → Char := fun c => c

/-! ## `waitForPidToUpdate` -/

/-- The loop `for range ticker` of `waitForPidToUpdate`, from tick number `tick`
on.  `reads` holds the results of `readPidFile(pidPath)` at the successive
ticks, `none` for a read that fails.  The result is the number of the tick at
which the function returns, or `none` when it is still polling after the last
of the given ticks. -/
def waitLoop (previousPid : GoString) : Nat → List (Option GoString) → Option Nat
  | _, [] => none
  | tick, read :: reads =>
    match read with
    | some currentPid =>
      if currentPid ≠ previousPid then some tick
      else waitLoop previousPid (tick + 1) reads
    | none => waitLoop previousPid (tick + 1) reads

/-- `waitForPidToUpdate` of `util.go` over the reads of the pid file at ticks
1, 2, 3 and so on. -/
def waitForPidToUpdate (previousPid : GoString) (reads : List (Option GoString)) :
    Option Nat :=
  waitLoop previousPid 1 reads

/-! ## `replaceNonAlphabetAndNumbers` -/

/-- Membership in the character class `[A-Za-z0-9]`. -/
def isAlphabetOrNumber (c : Char) : Bool :=
  (65 ≤ c.toNat && c.toNat ≤ 90) || (97 ≤ c.toNat && c.toNat ≤ 122) ||
    (48 ≤ c.toNat && c.toNat ≤ 57)

/-- Go's `strings.Join`. -/
def Join (elems : List GoString) (sep : GoString) : GoString :=
  match elems with
  | [] => []
  | [e] => e
  | e :: rest => e ++ sep ++ Join rest sep

/-- Go's `ReplaceAllString(src, "_")` for the regular expression
`[^A-Za-z0-9]+`, as a scan of `src` from left to right: a character of the
class `[A-Za-z0-9]` is copied; a character outside it writes `_` when it starts
a match and writes nothing when it continues one (`inMatch`). -/
def replaceAllNonAlnum (inMatch : Bool) : GoString → GoString
  | [] => []
  | c :: cs =>
    if isAlphabetOrNumber c then c :: replaceAllNonAlnum false cs
    else if inMatch then replaceAllNonAlnum true cs
    else '_' :: replaceAllNonAlnum true cs

/-- `replaceNonAlphabetAndNumbers` of `util.go`. -/
def replaceNonAlphabetAndNumbers (value : List GoString) : GoString :=
  replaceAllNonAlnum false (Join value "_".toList)

/-! ## Theorems: `IsValidReconf` -/

theorem EqualFold_http_http (unicodeFold : Char → Char → Bool) :
    EqualFold unicodeFold "http".toList "http".toList = true := by
  rfl

/-- `IsValidReconf` on a service with a non-empty name and a first destination,
written with the effective mode of that destination. -/
theorem IsValidReconf_cons (unicodeFold : Char → Char → Bool) (name : GoString)
    (dest0 : ServiceDest) (rest : List ServiceDest) (hname : name ≠ []) :
    IsValidReconf unicodeFold ⟨name, dest0 :: rest⟩ =
      if isHttpMode unicodeFold dest0 then
        if dest0.ServicePath = [] ∧ dest0.ServiceDomain = [] then
          some (409, "When using reqMode http, servicePath or serviceDomain are mandatory".toList)
        else some (200, [])
      else if dest0.SrcPort ≤ 0 ∨ dest0.Port = [] then
        some (400,
          "When NOT using reqMode http (e.g. tcp), srcPort and port parameters are mandatory.".toList)
      else some (200, []) := by
  have h0 : ¬ name.length = 0 := fun h => hname (List.length_eq_zero.mp h)
  simp only [IsValidReconf, isHttpMode, effectiveMode, h0, if_false, List.getElem?_cons_zero,
    StatusOK, StatusBadRequest, StatusConflict]
  by_cases hm : EqualFold unicodeFold
      (if dest0.ReqMode.length > 0 then dest0.ReqMode else "http".toList) "http".toList = true
  · simp only [hm, if_true]
    by_cases hp : dest0.ServicePath = [] <;> by_cases hd : dest0.ServiceDomain = [] <;>
      simp [hp, hd]
  · simp only [hm, if_false]
    by_cases hs : dest0.SrcPort ≤ 0 <;> by_cases hq : dest0.Port = [] <;>
      simp [hs, hq, List.length_pos]

/-- The effective mode is http exactly when `reqMode` is empty or equals
`"http"` ignoring case. -/
theorem isHttpMode_iff (unicodeFold : Char → Char → Bool) (d : ServiceDest) :
    isHttpMode unicodeFold d = true ↔
      (d.ReqMode = [] ∨ EqualFold unicodeFold d.ReqMode "http".toList = true) := by
  unfold isHttpMode effectiveMode
  by_cases h : d.ReqMode = []
  · simp only [h, List.length_nil, gt_iff_lt, lt_self_iff_false, if_false, true_or, iff_true]
    exact EqualFold_http_http unicodeFold
  · have hpos : d.ReqMode.length > 0 := List.length_pos.mpr h
    simp [h, hpos]

/-- C1, as stated, fails: for a named service whose first destination has an
empty `reqMode`, no path and no domain, the message returned with status 409 is
not the sentence ending in a full stop. -/
theorem IsValidReconf_http_conflict_full_stop_refuted :
    IsValidReconf asciiOnlyFold ⟨"web".toList, [⟨[], [], [], 0, []⟩]⟩ ≠
      some (409,
        "When using reqMode http, servicePath or serviceDomain are mandatory.".toList) := by
  decide

/-- C1 (amended): for a service with a non-empty name whose first destination has
effective mode http (`reqMode` empty, or equal to `"http"` ignoring case) and
has neither a path nor a domain, `IsValidReconf` returns status 409 with the
message "When using reqMode http, servicePath or serviceDomain are mandatory"
(which has no final full stop). -/
theorem IsValidReconf_http_conflict (unicodeFold : Char → Char → Bool) (name : GoString)
    (dest0 : ServiceDest) (rest : List ServiceDest)
    (hname : name ≠ [])
    (hmode : dest0.ReqMode = [] ∨ EqualFold unicodeFold dest0.ReqMode "http".toList = true)
    (hpath : dest0.ServicePath = []) (hdomain : dest0.ServiceDomain = []) :
    IsValidReconf unicodeFold ⟨name, dest0 :: rest⟩ =
      some (409,
        "When using reqMode http, servicePath or serviceDomain are mandatory".toList) := by
  rw [IsValidReconf_cons unicodeFold name dest0 rest hname,
    if_pos ((isHttpMode_iff unicodeFold dest0).mpr hmode), if_pos ⟨hpath, hdomain⟩]

/-- Witness for C1 (amended): mode `"HTTP"`, no path, no domain. -/
theorem IsValidReconf_http_conflict_witness :
    IsValidReconf asciiOnlyFold
        ⟨"web".toList, [⟨"HTTP".toList, [], [], 8080, "80".toList⟩]⟩ =
      some (409,
        "When using reqMode http, servicePath or serviceDomain are mandatory".toList) :=
  IsValidReconf_http_conflict asciiOnlyFold "web".toList
    ⟨"HTTP".toList, [], [], 8080, "80".toList⟩ [] (by decide) (Or.inr (by decide)) rfl rfl

/-- C2: for a service with at least one destination, `IsValidReconf` returns
status 200 with an empty message if and only if the name is non-empty and the
first destination satisfies the rule of its effective mode: in http mode a path
or a domain is present, in any other mode `srcPort` is positive and `port` is
non-empty.  In particular an http destination with only a domain succeeds. -/
theorem IsValidReconf_ok_iff (unicodeFold : Char → Char → Bool) (name : GoString)
    (dest0 : ServiceDest) (rest : List ServiceDest) :
    (IsValidReconf unicodeFold ⟨name, dest0 :: rest⟩ = some (200, []) ↔
      name ≠ [] ∧
        (if EqualFold unicodeFold (effectiveMode dest0) "http".toList = true then
          dest0.ServicePath ≠ [] ∨ dest0.ServiceDomain ≠ []
        else dest0.SrcPort > 0 ∧ dest0.Port ≠ [])) ∧
    (name ≠ [] →
      (dest0.ReqMode = [] ∨ EqualFold unicodeFold dest0.ReqMode "http".toList = true) →
      dest0.ServicePath = [] → dest0.ServiceDomain ≠ [] →
      IsValidReconf unicodeFold ⟨name, dest0 :: rest⟩ = some (200, [])) := by
  constructor
  · by_cases hname : name = []
    · subst hname
      simp [IsValidReconf, StatusBadRequest]
    · rw [IsValidReconf_cons unicodeFold name dest0 rest hname]
      unfold isHttpMode
      by_cases hm : EqualFold unicodeFold (effectiveMode dest0) "http".toList = true
      · simp only [hm, if_true]
        by_cases hp : dest0.ServicePath = [] <;> by_cases hd : dest0.ServiceDomain = [] <;>
          simp [hp, hd, hname]
      · simp only [hm, if_false]
        by_cases hs : dest0.SrcPort ≤ 0 <;> by_cases hq : dest0.Port = [] <;>
          simp [hs, hq, hname]
        omega
  · intro hname hmode hpath hdomain
    rw [IsValidReconf_cons unicodeFold name dest0 rest hname,
      if_pos ((isHttpMode_iff unicodeFold dest0).mpr hmode),
      if_neg (fun h => hdomain h.2)]

/-- Witness for C2: an http destination with only `serviceDomain` set. -/
theorem IsValidReconf_ok_iff_witness :
    IsValidReconf asciiOnlyFold
        ⟨"web".toList, [⟨"http".toList, [], "example.com".toList, 0, []⟩]⟩ =
      some (200, []) :=
  (IsValidReconf_ok_iff asciiOnlyFold "web".toList
    ⟨"http".toList, [], "example.com".toList, 0, []⟩ []).2
    (by decide) (Or.inr (by decide)) rfl (by decide)

/-- C3: for a service whose name is empty, `IsValidReconf` returns status 400
with the message "serviceName parameter is mandatory.", whatever the list of
destinations is, the empty list included. -/
theorem IsValidReconf_empty_name (unicodeFold : Char → Char → Bool)
    (dests : List ServiceDest) :
    IsValidReconf unicodeFold ⟨[], dests⟩ =
      some (400, "serviceName parameter is mandatory.".toList) := by
  simp [IsValidReconf, StatusBadRequest]

/-- C4: for a service with a non-empty name whose first destination has a
non-empty `reqMode` that is not `"http"` ignoring case, a `srcPort` that is not
positive or an empty `port` makes `IsValidReconf` return status 400 with the
message "When NOT using reqMode http (e.g. tcp), srcPort and port parameters
are mandatory."; and in this mode replacing the path and the domain of the
first destination by any others leaves the result unchanged. -/
theorem IsValidReconf_non_http_bad_request (unicodeFold : Char → Char → Bool)
    (name : GoString) (dest0 : ServiceDest) (rest : List ServiceDest)
    (hname : name ≠ []) (hreq : dest0.ReqMode ≠ [])
    (hmode : EqualFold unicodeFold dest0.ReqMode "http".toList = false) :
    ((dest0.SrcPort ≤ 0 ∨ dest0.Port = []) →
      IsValidReconf unicodeFold ⟨name, dest0 :: rest⟩ =
        some (400,
          "When NOT using reqMode http (e.g. tcp), srcPort and port parameters are mandatory.".toList)) ∧
    (∀ path domain : GoString,
      IsValidReconf unicodeFold
          ⟨name, { dest0 with ServicePath := path, ServiceDomain := domain } :: rest⟩ =
        IsValidReconf unicodeFold ⟨name, dest0 :: rest⟩) := by
  have hnot : ∀ d : ServiceDest, d.ReqMode = dest0.ReqMode →
      ¬ (isHttpMode unicodeFold d = true) := by
    intro d hd h
    rcases (isHttpMode_iff unicodeFold d).mp h with h1 | h1
    · exact hreq (hd ▸ h1)
    · rw [hd, hmode] at h1
      exact Bool.false_ne_true h1
  constructor
  · intro hports
    rw [IsValidReconf_cons unicodeFold name dest0 rest hname, if_neg (hnot dest0 rfl),
      if_pos hports]
  · intro path domain
    rw [IsValidReconf_cons unicodeFold name dest0 rest hname,
      IsValidReconf_cons unicodeFold name _ rest hname, if_neg (hnot dest0 rfl),
      if_neg (hnot { dest0 with ServicePath := path, ServiceDomain := domain } rfl)]

/-- Witness for C4: mode `"tcp"` with a source port but no port. -/
theorem IsValidReconf_non_http_bad_request_witness :
    IsValidReconf asciiOnlyFold
        ⟨"db".toList, [⟨"tcp".toList, "/".toList, "example.com".toList, 5432, []⟩]⟩ =
      some (400,
        "When NOT using reqMode http (e.g. tcp), srcPort and port parameters are mandatory.".toList) :=
  (IsValidReconf_non_http_bad_request asciiOnlyFold "db".toList
    ⟨"tcp".toList, "/".toList, "example.com".toList, 5432, []⟩ []
    (by decide) (by decide) (by decide)).1 (Or.inr rfl)

/-- C5: `IsValidReconf` depends only on the name and the first destination: two
services with the same name and the same first destination (or both without
one) get the same result, however their later destinations differ. -/
theorem IsValidReconf_first_destination_only (unicodeFold : Char → Char → Bool)
    (s1 s2 : Service) (hname : s1.ServiceName = s2.ServiceName)
    (hfirst : s1.ServiceDest[0]? = s2.ServiceDest[0]?) :
    IsValidReconf unicodeFold s1 = IsValidReconf unicodeFold s2 := by
  unfold IsValidReconf
  rw [hname, hfirst]

/-- Witness for C5: the second destination of one service is an incomplete tcp
rule, the other service has no second destination. -/
theorem IsValidReconf_first_destination_only_witness :
    IsValidReconf asciiOnlyFold
        ⟨"web".toList, [⟨[], "/api".toList, [], 0, []⟩, ⟨"tcp".toList, [], [], 0, []⟩]⟩ =
      IsValidReconf asciiOnlyFold ⟨"web".toList, [⟨[], "/api".toList, [], 0, []⟩]⟩ :=
  IsValidReconf_first_destination_only asciiOnlyFold
    ⟨"web".toList, [⟨[], "/api".toList, [], 0, []⟩, ⟨"tcp".toList, [], [], 0, []⟩]⟩
    ⟨"web".toList, [⟨[], "/api".toList, [], 0, []⟩]⟩ rfl rfl

/-! ## Theorems: `cmdRunHa` -/

/-- A format without `%` is reproduced unchanged by `Errorf`. -/
theorem Errorf_of_no_percent (format : GoString) (h : '%' ∉ format) :
    Errorf format = some format := by
  induction format with
  | nil => rfl
  | cons c rest ih =>
    have hc : c ≠ '%' := fun hc => h (hc ▸ List.mem_cons_self _ _)
    have hrest : '%' ∉ rest := fun hr => h (List.mem_cons_of_mem _ hr)
    rw [Errorf.eq_def]
    simp only [ne_eq, hc, not_false_eq_true, if_true, ih hrest, Option.map_some']

/-- When neither captured text contains a `%`, the failure returned for an exit
error carries exactly the combined output. -/
theorem cmdRunHa_failure_text_of_no_percent (status : Int) (outStr errStr : GoString)
    (hout : '%' ∉ outStr) (herr : '%' ∉ errStr) :
    (cmdRunHa (.exitError status) outStr errStr).2 =
      .failure (some (combinedOut outStr errStr)) := by
  have h : '%' ∉ combinedOut outStr errStr := by
    simp [combinedOut, hout, herr]
  simp [cmdRunHa, Errorf_of_no_percent _ h]

/-- C6, as stated, fails: when waiting on the process reports an error that is
not an exit error, `cmdRunHa` returns `nil` although the process did not exit
cleanly with status zero. -/
theorem cmdRunHa_other_wait_error_is_nil :
    ¬ ((cmdRunHa .otherError [] []).2 ≠ RunError.nil ↔ WaitResult.otherError ≠ .exited) := by
  decide

/-- C6 (amended): when waiting on the process reports a termination result (a
clean exit or an exit error), `cmdRunHa` returns a failure if and only if the
process did not exit cleanly with status zero; a clean exit gives `nil` whether
or not anything was written to standard error. -/
theorem cmdRunHa_failure_iff (w : WaitResult) (outStr errStr : GoString)
    (hterm : w ≠ .otherError) :
    ((cmdRunHa w outStr errStr).2 ≠ RunError.nil ↔ w ≠ .exited) ∧
      (w = .exited → (cmdRunHa w outStr errStr).2 = RunError.nil) := by
  cases w with
  | exited => by_cases h : errStr = [] <;> simp [cmdRunHa, h]
  | exitError status => simp [cmdRunHa]
  | otherError => exact absurd rfl hterm

/-- Witness for C6 (amended): a clean exit with text on standard error. -/
theorem cmdRunHa_failure_iff_witness :
    (cmdRunHa .exited [] "warning: x".toList).2 = RunError.nil :=
  (cmdRunHa_failure_iff .exited [] "warning: x".toList (by decide)).2 rfl

/-- C7 fails on the code: with exit status 1, standard output `100%` and an
empty standard error, the text of the returned failure is not the combined
output; the `%` and the line break after it have become `%!`, the line break
and `(MISSING)`. -/
theorem cmdRunHa_percent_in_output_altered :
    (cmdRunHa (.exitError 1) "100%".toList []).2 =
        .failure (some "\nstdout:\n100%!\n(MISSING)stderr:\n\n".toList) ∧
      (cmdRunHa (.exitError 1) "100%".toList []).2 ≠
        .failure (some ("\nstdout:\n".toList ++ "100%".toList ++ "\nstderr:\n".toList ++
          [] ++ "\n".toList)) := by
  decide

/-! ## Theorems: `Glob` -/

theorem Split_ne_nil (s : GoString) (sep : Char) : Split s sep ≠ [] := by
  cases s with
  | nil => simp [Split]
  | cons c cs =>
    unfold Split
    by_cases h : c = sep
    · simp [h]
    · simp only [h, if_false]
      split <;> simp

theorem Split_of_not_mem (s : GoString) (sep : Char) (h : sep ∉ s) : Split s sep = [s] := by
  induction s with
  | nil => rfl
  | cons c cs ih =>
    have hc : c ≠ sep := fun hc => h (hc ▸ List.mem_cons_self _ _)
    have hcs : sep ∉ cs := fun hr => h (List.mem_cons_of_mem _ hr)
    unfold Split
    simp [hc, ih hcs]

theorem Split_cons_sep (cs : GoString) (sep : Char) :
    Split (sep :: cs) sep = [] :: Split cs sep := by
  rw [Split]
  simp

theorem Split_replicate (n : Nat) (sep : Char) :
    Split (List.replicate n sep) sep = List.replicate (n + 1) [] := by
  induction n with
  | zero => rfl
  | succ n ih =>
    rw [List.replicate_succ, Split_cons_sep, ih]
    rfl

theorem Index_nil (s : GoString) : Index s [] = 0 := by
  cases s <;> simp [Index, List.isPrefixOf]

theorem sliceFrom_zero (s : GoString) : sliceFrom s 0 = some s := by
  simp [sliceFrom]

theorem globLoop_replicate_nil (m : Nat) (leadingGlob : Bool) (remaining : Nat) :
    ∀ (i : Nat) (str : GoString), i + remaining ≤ m →
      globLoop (List.replicate m []) leadingGlob i remaining str = .finished str := by
  induction remaining with
  | zero => intro i str _; rfl
  | succ k ih =>
    intro i str hle
    have hi : i < m := by omega
    have hget : (List.replicate m ([] : GoString))[i]? = some [] := by
      rw [List.getElem?_eq_getElem (by simpa using hi)]
      simp
    have hnext := ih (i + 1) str (by omega)
    simp [globLoop, hget, Index_nil, sliceFrom_zero, hnext]

/-- C8: for a pattern without `*` (the empty pattern included) `Glob` returns,
for every candidate, whether the candidate equals the pattern; so it accepts
exactly the pattern itself, rejects every proper extension of it, and the
empty pattern matches only the empty candidate. -/
theorem Glob_literal (pattern str : GoString) (hstar : '*' ∉ pattern) :
    Glob pattern str = some (decide (str = pattern)) ∧
      (Glob pattern str = some true ↔ str = pattern) ∧
      (∀ ext : GoString, ext ≠ [] → Glob pattern (pattern ++ ext) = some false) ∧
      (pattern = [] → (Glob pattern str = some true ↔ str = [])) := by
  have hmain : ∀ cand : GoString, Glob pattern cand = some (decide (cand = pattern)) := by
    intro cand
    unfold Glob
    by_cases h0 : pattern.length = 0
    · simp [h0]
    · have h1 : pattern ≠ ['*'] := by
        intro h
        apply hstar
        rw [h]
        decide
      simp [h0, h1, Split_of_not_mem pattern _ hstar]
  refine ⟨hmain str, ?_, ?_, ?_⟩
  · rw [hmain str]
    simp
  · intro ext hext
    rw [hmain]
    simp [hext]
  · intro hp
    rw [hmain str, hp]
    simp

/-- Witness for C8: the pattern `abc` rejects the candidate `abcd`. -/
theorem Glob_literal_witness : Glob "abc".toList ("abc".toList ++ "d".toList) = some false :=
  (Glob_literal "abc".toList "abc".toList (by decide)).2.2.1 "d".toList (by decide)

/-- C9: a pattern made of one or more `*` and nothing else matches every
candidate, the empty one included. -/
theorem Glob_only_wildcards (n : Nat) (str : GoString) :
    Glob (List.replicate (n + 1) '*') str = some true := by
  cases n with
  | zero => rfl
  | succ k =>
    have hlen : (List.replicate (k + 1 + 1) '*').length ≠ 0 := by simp
    have hne : List.replicate (k + 1 + 1) '*' ≠ "*".toList := by
      intro h
      have := congrArg List.length h
      simp at this
    have htrail : HasSuffix (List.replicate (k + 1 + 1) '*') "*".toList = true := by
      unfold HasSuffix
      rw [List.isSuffixOf_iff_suffix]
      exact ⟨List.replicate (k + 1) '*', by
        rw [show "*".toList = List.replicate 1 '*' from rfl, ← List.replicate_add]⟩
    have hloop := globLoop_replicate_nil (k + 1 + 1 + 1)
      (HasPrefix (List.replicate (k + 1 + 1) '*') "*".toList) (k + 1 + 1) 0 str (by omega)
    unfold Glob
    simp only [hlen, hne, if_false, Split_replicate, List.length_replicate,
      Nat.add_sub_cancel, hloop, htrail, Bool.true_or]
    simp

theorem Split_cons_ne (c : Char) (cs : GoString) (sep : Char) (h : c ≠ sep) :
    ∃ piece pieces, Split cs sep = piece :: pieces ∧
      Split (c :: cs) sep = (c :: piece) :: pieces := by
  cases hs : Split cs sep with
  | nil => exact absurd hs (Split_ne_nil cs sep)
  | cons piece pieces =>
    refine ⟨piece, pieces, rfl, ?_⟩
    rw [Split]
    simp [h, hs]

/-- The number of pieces is one more than the number of separators. -/
theorem Split_length (s : GoString) (sep : Char) :
    (Split s sep).length = s.count sep + 1 := by
  induction s with
  | nil => rfl
  | cons c cs ih =>
    by_cases h : c = sep
    · subst h
      rw [Split_cons_sep, List.length_cons, ih, List.count_cons_self]
    · obtain ⟨piece, pieces, hcs, hall⟩ := Split_cons_ne c cs sep h
      rw [hall, List.count_cons_of_ne (fun e => h e.symm), ← ih, hcs]
      rfl

/-- The last piece has no separator, and it is the whole string or what follows
a separator in it. -/
theorem Split_getLast (s : GoString) (sep : Char) :
    ∃ l, (Split s sep).getLast? = some l ∧ sep ∉ l ∧ (s = l ∨ ∃ pre, s = pre ++ sep :: l) := by
  induction s with
  | nil => exact ⟨[], rfl, by simp, Or.inl rfl⟩
  | cons c cs ih =>
    obtain ⟨l, hlast, hmem, hshape⟩ := ih
    by_cases h : c = sep
    · subst h
      refine ⟨l, ?_, hmem, Or.inr ?_⟩
      · rw [Split_cons_sep]
        cases hs : Split cs c with
        | nil => exact absurd hs (Split_ne_nil cs c)
        | cons piece pieces =>
          rw [hs] at hlast
          rw [List.getLast?_cons_cons]
          exact hlast
      · rcases hshape with h1 | ⟨pre, h1⟩
        · exact ⟨[], by rw [h1]; rfl⟩
        · exact ⟨c :: pre, by rw [h1]; rfl⟩
    · obtain ⟨piece, pieces, hcs, hall⟩ := Split_cons_ne c cs sep h
      rw [hcs] at hlast
      cases pieces with
      | nil =>
        have hl : piece = l := by simpa using hlast
        subst hl
        have hcs1 : cs = piece := by
          rcases hshape with h1 | ⟨pre, h1⟩
          · exact h1
          · have hlen := Split_length cs sep
            rw [hcs, h1] at hlen
            simp at hlen
        refine ⟨c :: piece, by rw [hall]; rfl, ?_, Or.inl (by rw [hcs1])⟩
        intro hin
        rcases List.mem_cons.mp hin with e | e
        · exact h e.symm
        · exact hmem e
      | cons q qs =>
        refine ⟨l, ?_, hmem, Or.inr ?_⟩
        · rw [hall, List.getLast?_cons_cons]
          rw [List.getLast?_cons_cons] at hlast
          exact hlast
        · rcases hshape with h1 | ⟨pre, h1⟩
          · exfalso
            have hlen := Split_length cs sep
            rw [hcs, h1, List.count_eq_zero_of_not_mem hmem] at hlen
            simp at hlen
          · exact ⟨c :: pre, by rw [h1]; rfl⟩

theorem takeWhile_append_stop (p : Char → Bool) (a : GoString) (x : Char) (b : GoString)
    (ha : ∀ y ∈ a, p y = true) (hx : p x = false) :
    List.takeWhile p (a ++ x :: b) = a := by
  induction a with
  | nil => simp [List.takeWhile, hx]
  | cons y ys ih =>
    have hy : p y = true := ha y (List.mem_cons_self _ _)
    have hys : ∀ z ∈ ys, p z = true := fun z hz => ha z (List.mem_cons_of_mem _ hz)
    simp [List.takeWhile, hy, ih hys]

theorem lastLiteral_of_not_mem (l : GoString) (h : '*' ∉ l) : lastLiteral l = l := by
  unfold lastLiteral
  rw [List.takeWhile_eq_self_iff.mpr, List.reverse_reverse]
  intro c hc
  have hc2 : c ∈ l := List.mem_reverse.mp hc
  have : c ≠ '*' := fun e => h (e ▸ hc2)
  simpa using this

theorem lastLiteral_append_star (pre l : GoString) (h : '*' ∉ l) :
    lastLiteral (pre ++ '*' :: l) = l := by
  unfold lastLiteral
  have hrev : (pre ++ '*' :: l).reverse = l.reverse ++ '*' :: pre.reverse := by simp
  rw [hrev, takeWhile_append_stop _ _ _ _ _ (by simp), List.reverse_reverse]
  intro c hc
  have hc2 : c ∈ l := List.mem_reverse.mp hc
  have : c ≠ '*' := fun e => h (e ▸ hc2)
  simpa using this

/-- The last piece of a pattern split on `*` is the text after its final `*`. -/
theorem Split_getLast_eq_lastLiteral (pattern : GoString) :
    (Split pattern '*').getLast? = some (lastLiteral pattern) := by
  obtain ⟨l, hlast, hmem, hshape⟩ := Split_getLast pattern '*'
  rw [hlast]
  rcases hshape with h1 | ⟨pre, h1⟩
  · rw [h1, lastLiteral_of_not_mem l hmem]
  · rw [h1, lastLiteral_append_star pre l hmem]

theorem sliceFrom_suffix (str : GoString) (lo : Int) (str2 : GoString)
    (h : sliceFrom str lo = some str2) : str2 <:+ str := by
  unfold sliceFrom at h
  split at h
  · cases h
    exact List.drop_suffix _ _
  · cases h

/-- When the loop of `Glob` runs to its end, what remains of the candidate is a
suffix of the candidate it started with. -/
theorem globLoop_finished_suffix (parts : List GoString) (leadingGlob : Bool)
    (remaining : Nat) :
    ∀ (i : Nat) (str rest : GoString),
      globLoop parts leadingGlob i remaining str = .finished rest → rest <:+ str := by
  induction remaining with
  | zero =>
    intro i str rest h
    simp only [globLoop] at h
    cases h
    exact List.suffix_refl _
  | succ k ih =>
    intro i str rest h
    rw [globLoop] at h
    split at h
    · cases h
    · dsimp only at h
      split at h
      · cases h
      · split at h
        · cases h
        · split at h
          · cases h
          · rename_i str2 hslice
            exact (ih _ _ _ h).trans (sliceFrom_suffix _ _ _ hslice)

/-- C10: for a pattern that contains a `*` but does not end with one, every
candidate that `Glob` accepts ends with the text after the final `*` of the
pattern. -/
theorem Glob_ends_with_last_literal (pattern str : GoString) (hstar : '*' ∈ pattern)
    (htrail : HasSuffix pattern "*".toList = false) (hglob : Glob pattern str = some true) :
    ∃ front : GoString, str = front ++ lastLiteral pattern := by
  have h0 : ¬ pattern.length = 0 := by
    intro h
    rw [List.length_eq_zero.mp h] at hstar
    cases hstar
  have h1 : ¬ pattern = "*".toList := by
    intro h
    rw [h] at htrail
    exact absurd htrail (by decide)
  have h2 : ¬ (Split pattern '*').length = 1 := by
    have hpos : 0 < pattern.count '*' := List.count_pos_iff.mpr hstar
    rw [Split_length]
    omega
  have hlast : (Split pattern '*')[(Split pattern '*').length - 1]? =
      some (lastLiteral pattern) := by
    rw [← List.getLast?_eq_getElem?, Split_getLast_eq_lastLiteral]
  unfold Glob at hglob
  simp only [h0, h1, h2, if_false, htrail, Bool.false_or, hlast] at hglob
  split at hglob
  · cases hglob
  · cases hglob
  · rename_i rest hloop
    have hsuf : HasSuffix rest (lastLiteral pattern) = true := by
      simpa using hglob
    unfold HasSuffix at hsuf
    rw [List.isSuffixOf_iff_suffix] at hsuf
    obtain ⟨front, hfront⟩ := hsuf.trans (globLoop_finished_suffix _ _ _ _ _ _ hloop)
    exact ⟨front, hfront.symm⟩

/-- Witness for C10: the pattern `*a*b` accepts `xaxb`, which ends with `b`. -/
theorem Glob_ends_with_last_literal_witness :
    ∃ front : GoString, "xaxb".toList = front ++ lastLiteral "*a*b".toList :=
  Glob_ends_with_last_literal "*a*b".toList "xaxb".toList (by decide) (by decide) (by decide)

/-- The candidate `xaxbx` does not end with `b`, and the pattern `*a*b` rejects
it. -/
theorem Glob_star_a_star_b_rejects_xaxbx :
    Glob "*a*b".toList "xaxbx".toList = some false := by
  decide

/-! ## Theorems: `IsValidReconf` never fails on a service with a destination -/

/-- C19: on a service with at least one destination `IsValidReconf` returns a
status and a message (the reads of `ServiceDest[0]` are in range); the status
is 200, 400 or 409, and the message is empty exactly when the status is 200.
The only services on which the read of the first destination is out of range
are those with a non-empty name and no destination. -/
theorem IsValidReconf_total (unicodeFold : Char → Char → Bool) (name : GoString)
    (dest0 : ServiceDest) (rest : List ServiceDest) :
    (∃ (status : Int) (msg : GoString),
      IsValidReconf unicodeFold ⟨name, dest0 :: rest⟩ = some (status, msg) ∧
        (status = 200 ∨ status = 400 ∨ status = 409) ∧ (msg = [] ↔ status = 200)) ∧
    (∀ service : Service, IsValidReconf unicodeFold service = none ↔
      (service.ServiceName ≠ [] ∧ service.ServiceDest = [])) := by
  constructor
  · by_cases hname : name = []
    · subst hname
      exact ⟨400, "serviceName parameter is mandatory.".toList,
        by simp [IsValidReconf, StatusBadRequest], by decide, by decide⟩
    · rw [IsValidReconf_cons unicodeFold name dest0 rest hname]
      by_cases hm : isHttpMode unicodeFold dest0 = true
      · by_cases hp : dest0.ServicePath = [] ∧ dest0.ServiceDomain = []
        · exact ⟨409,
            "When using reqMode http, servicePath or serviceDomain are mandatory".toList,
            by rw [if_pos hm, if_pos hp], by decide, by decide⟩
        · exact ⟨200, [], by rw [if_pos hm, if_neg hp], by decide, by decide⟩
      · by_cases hq : dest0.SrcPort ≤ 0 ∨ dest0.Port = []
        · exact ⟨400,
            "When NOT using reqMode http (e.g. tcp), srcPort and port parameters are mandatory.".toList,
            by rw [if_neg hm, if_pos hq], by decide, by decide⟩
        · exact ⟨200, [], by rw [if_neg hm, if_neg hq], by decide, by decide⟩
  · intro service
    obtain ⟨sname, dests⟩ := service
    by_cases hname : sname = []
    · subst hname
      simp [IsValidReconf]
    · cases dests with
      | nil =>
        have h0 : ¬ sname.length = 0 := fun h => hname (List.length_eq_zero.mp h)
        simp [IsValidReconf, h0, hname]
      | cons d ds =>
        rw [IsValidReconf_cons unicodeFold sname d ds hname]
        simp only [reduceCtorEq, and_false, iff_false]
        split <;> split <;> simp

/-! ## Theorems: `getSecretOrEnvVar` and `getSecretOrEnvVarSplit` -/

/-- What `dropWhile` removes from the front of a string when the test is
membership in the cutset of one line break. -/
theorem dropWhile_newline_spec (l : GoString) :
    ∃ k : Nat, l = List.replicate k '\n' ++ l.dropWhile (fun c => "\n".toList.contains c) ∧
      (l.dropWhile (fun c => "\n".toList.contains c)).head? ≠ some '\n' := by
  induction l with
  | nil => exact ⟨0, rfl, by simp⟩
  | cons c cs ih =>
    obtain ⟨k, hk, hhead⟩ := ih
    by_cases hc : c = '\n'
    · subst hc
      refine ⟨k + 1, ?_, ?_⟩
      · have : List.dropWhile (fun c => "\n".toList.contains c) ('\n' :: cs) =
            List.dropWhile (fun c => "\n".toList.contains c) cs := by
          rw [List.dropWhile_cons]
          simp
        rw [this, List.replicate_succ, List.cons_append, ← hk]
      · have : List.dropWhile (fun c => "\n".toList.contains c) ('\n' :: cs) =
            List.dropWhile (fun c => "\n".toList.contains c) cs := by
          rw [List.dropWhile_cons]
          simp
        rw [this]
        exact hhead
    · have : List.dropWhile (fun c => "\n".toList.contains c) (c :: cs) = c :: cs := by
        rw [List.dropWhile_cons]
        simp [hc]
      refine ⟨0, ?_, ?_⟩
      · rw [this]
        rfl
      · rw [this]
        simp [hc]

/-- `TrimRight` with the cutset of one line break removes exactly the line
breaks at the end: what is cut off is a run of line breaks, and what is left
does not end with one. -/
theorem TrimRight_newline_spec (s : GoString) :
    (∃ k : Nat, s = TrimRight s "\n".toList ++ List.replicate k '\n') ∧
      (TrimRight s "\n".toList).getLast? ≠ some '\n' := by
  obtain ⟨k, hk, hhead⟩ := dropWhile_newline_spec s.reverse
  unfold TrimRight
  constructor
  · refine ⟨k, ?_⟩
    have h := congrArg List.reverse hk
    rw [List.reverse_reverse, List.reverse_append, List.reverse_replicate] at h
    exact h
  · rw [List.getLast?_reverse]
    exact hhead

theorem Replace_nil (old : Char) (new : GoString) : Replace [] old new = [] := rfl

theorem Replace_not_mem (s : GoString) (old : Char) (new : GoString) (h : old ∉ new) :
    old ∉ Replace s old new := by
  induction s with
  | nil => simp [Replace]
  | cons c cs ih =>
    unfold Replace
    by_cases hc : c = old
    · simp only [hc, if_true, List.mem_append, not_or]
      exact ⟨h, ih⟩
    · simp only [hc, if_false, List.mem_cons, not_or]
      exact ⟨fun e => hc e.symm, ih⟩

theorem Replace_of_not_mem (s : GoString) (old : Char) (new : GoString) (h : old ∉ s) :
    Replace s old new = s := by
  induction s with
  | nil => rfl
  | cons c cs ih =>
    have hc : c ≠ old := fun e => h (e ▸ List.mem_cons_self _ _)
    have hcs : old ∉ cs := fun hr => h (List.mem_cons_of_mem _ hr)
    unfold Replace
    simp [hc, ih hcs]

/-- `Replace` rewrites a string character by character. -/
theorem Replace_eq_flatten_map (s : GoString) (old : Char) (new : GoString) :
    Replace s old new = (s.map (fun c => if c = old then new else [c])).flatten := by
  induction s with
  | nil => rfl
  | cons c cs ih =>
    unfold Replace
    by_cases hc : c = old
    · simp [hc, ih]
    · simp [hc, ih]

/-- C13: `getSecretOrEnvVar` resolves in strict priority order.  When reading
the file `/run/secrets/dfp_` followed by the key in lower case succeeds, the
result is the content of that file without its trailing line breaks, whatever
the environment and the default are; otherwise, when the environment variable
named by the key as given is non-empty, the result is its value; otherwise the
result is the default. -/
theorem getSecretOrEnvVar_priority (unicodeLower : Char → Char)
    (readSecretsFile : GoString → Option GoString) (Getenv : GoString → GoString)
    (key defaultValue : GoString) :
    (∀ content : GoString,
      readSecretsFile ("/run/secrets/dfp_".toList ++ ToLower unicodeLower key) = some content →
        getSecretOrEnvVar unicodeLower readSecretsFile Getenv key defaultValue =
            TrimRight content "\n".toList ∧
          (∃ k : Nat, content =
            getSecretOrEnvVar unicodeLower readSecretsFile Getenv key defaultValue ++
              List.replicate k '\n') ∧
          (getSecretOrEnvVar unicodeLower readSecretsFile Getenv key defaultValue).getLast? ≠
            some '\n') ∧
    (readSecretsFile ("/run/secrets/dfp_".toList ++ ToLower unicodeLower key) = none →
      Getenv key ≠ [] →
        getSecretOrEnvVar unicodeLower readSecretsFile Getenv key defaultValue = Getenv key) ∧
    (readSecretsFile ("/run/secrets/dfp_".toList ++ ToLower unicodeLower key) = none →
      Getenv key = [] →
        getSecretOrEnvVar unicodeLower readSecretsFile Getenv key defaultValue =
          defaultValue) := by
  refine ⟨?_, ?_, ?_⟩
  · intro content hread
    have hres : getSecretOrEnvVar unicodeLower readSecretsFile Getenv key defaultValue =
        TrimRight content "\n".toList := by
      simp only [getSecretOrEnvVar, hread]
    rw [hres]
    exact ⟨rfl, (TrimRight_newline_spec content).1, (TrimRight_newline_spec content).2⟩
  · intro hread henv
    have hpos : (Getenv key).length > 0 := List.length_pos.mpr henv
    simp only [getSecretOrEnvVar, hread, hpos, if_true]
  · intro hread henv
    simp only [getSecretOrEnvVar, hread, henv, List.length_nil, gt_iff_lt, lt_self_iff_false,
      if_false]

/-- Witness for C13: the secret file `/run/secrets/dfp_stats_user` exists and
wins over a set environment variable `STATS_USER` and over the default. -/
theorem getSecretOrEnvVar_priority_witness :
    getSecretOrEnvVar asciiOnlyLower
        (fun path => if path = "/run/secrets/dfp_stats_user".toList then
          some "admin\n".toList else none)
        (fun _ => "fromenv".toList) "STATS_USER".toList "fallback".toList =
      TrimRight "admin\n".toList "\n".toList :=
  ((getSecretOrEnvVar_priority asciiOnlyLower
    (fun path => if path = "/run/secrets/dfp_stats_user".toList then
      some "admin\n".toList else none)
    (fun _ => "fromenv".toList) "STATS_USER".toList "fallback".toList).1
    "admin\n".toList (by decide)).1

/-- C14: `getSecretOrEnvVarSplit` is `getSecretOrEnvVar` with every comma
replaced by a line break followed by four spaces, wherever the value came
from; so its result has no comma, and it is the plain resolution when that has
no comma. -/
theorem getSecretOrEnvVarSplit_spec (unicodeLower : Char → Char)
    (readSecretsFile : GoString → Option GoString) (Getenv : GoString → GoString)
    (key defaultValue : GoString) :
    getSecretOrEnvVarSplit unicodeLower readSecretsFile Getenv key defaultValue =
        ((getSecretOrEnvVar unicodeLower readSecretsFile Getenv key defaultValue).map
          (fun c => if c = ',' then "\n    ".toList else [c])).flatten ∧
      ',' ∉ getSecretOrEnvVarSplit unicodeLower readSecretsFile Getenv key defaultValue ∧
      (',' ∉ getSecretOrEnvVar unicodeLower readSecretsFile Getenv key defaultValue →
        getSecretOrEnvVarSplit unicodeLower readSecretsFile Getenv key defaultValue =
          getSecretOrEnvVar unicodeLower readSecretsFile Getenv key defaultValue) := by
  have hsplit : getSecretOrEnvVarSplit unicodeLower readSecretsFile Getenv key defaultValue =
      Replace (getSecretOrEnvVar unicodeLower readSecretsFile Getenv key defaultValue) ','
        "\n    ".toList := by
    unfold getSecretOrEnvVarSplit
    by_cases h : getSecretOrEnvVar unicodeLower readSecretsFile Getenv key defaultValue = []
    · simp only [h, List.length_nil, gt_iff_lt, lt_self_iff_false, if_false, Replace_nil]
    · simp only [List.length_pos.mpr h, if_true]
  refine ⟨?_, ?_, ?_⟩
  · rw [hsplit, Replace_eq_flatten_map]
  · rw [hsplit]
    exact Replace_not_mem _ _ _ (by decide)
  · intro h
    rw [hsplit, Replace_of_not_mem _ _ _ h]

/-- A default with two commas, resolved with no secret file and no environment
variable, comes back on three lines. -/
theorem getSecretOrEnvVarSplit_default_example :
    getSecretOrEnvVarSplit asciiOnlyLower (fun _ => none) (fun _ => [])
        "EXTRA_FRONTEND".toList "a,b,c".toList =
      "a\n    b\n    c".toList := by
  decide

/-! ## Theorems: `waitForPidToUpdate` -/

/-- A tick whose read fails or gives the previous content is passed over: the
loop goes on with the next tick. -/
theorem waitLoop_skip (previousPid : GoString) (tick : Nat) (read : Option GoString)
    (rest : List (Option GoString)) (h : read = none ∨ read = some previousPid) :
    waitLoop previousPid tick (read :: rest) = waitLoop previousPid (tick + 1) rest := by
  rcases h with h | h
  · subst h
    rfl
  · subst h
    simp [waitLoop]

/-- A tick whose read succeeds with another content ends the loop. -/
theorem waitLoop_stop (previousPid : GoString) (tick : Nat) (cur : GoString)
    (rest : List (Option GoString)) (h : cur ≠ previousPid) :
    waitLoop previousPid tick (some cur :: rest) = some tick := by
  simp [waitLoop, h]

/-- The loop started at tick `tick` returns at tick `tick + k` exactly when the
read number `k` is the first one that succeeds with a content other than
`previousPid`. -/
theorem waitLoop_eq_some_iff (previousPid : GoString) (reads : List (Option GoString)) :
    ∀ (tick n : Nat), waitLoop previousPid tick reads = some n ↔
      ∃ k : Nat, n = tick + k ∧
        (∃ cur : GoString, reads[k]? = some (some cur) ∧ cur ≠ previousPid) ∧
        ∀ j : Nat, j < k → reads[j]? = some none ∨ reads[j]? = some (some previousPid) := by
  induction reads with
  | nil =>
    intro tick n
    simp [waitLoop]
  | cons read rest ih =>
    intro tick n
    by_cases hskip : read = none ∨ read = some previousPid
    · rw [waitLoop_skip previousPid tick read rest hskip, ih (tick + 1) n]
      constructor
      · rintro ⟨k, hn, hcur, hbefore⟩
        refine ⟨k + 1, by omega, ?_, ?_⟩
        · simpa using hcur
        · intro j hj
          cases j with
          | zero =>
            rcases hskip with h | h
            · exact Or.inl (by simp [h])
            · exact Or.inr (by simp [h])
          | succ j => simpa using hbefore j (by omega)
      · rintro ⟨k, hn, ⟨cur, hcur, hne⟩, hbefore⟩
        cases k with
        | zero =>
          exfalso
          have h0 : read = some cur := by simpa using hcur
          rcases hskip with h | h
          · rw [h] at h0
            cases h0
          · rw [h] at h0
            exact hne (Option.some.inj h0).symm
        | succ k =>
          refine ⟨k, by omega, ⟨cur, by simpa using hcur, hne⟩, ?_⟩
          intro j hj
          simpa using hbefore (j + 1) (by omega)
    · obtain ⟨cur, hread, hne⟩ : ∃ cur, read = some cur ∧ cur ≠ previousPid := by
        cases read with
        | none => exact absurd (Or.inl rfl) hskip
        | some cur =>
          refine ⟨cur, rfl, ?_⟩
          intro h
          exact hskip (Or.inr (by rw [h]))
      subst hread
      rw [waitLoop_stop previousPid tick cur rest hne]
      constructor
      · intro h
        refine ⟨0, ?_, ⟨cur, by simp, hne⟩, ?_⟩
        · have := Option.some.inj h
          omega
        · intro j hj
          omega
      · rintro ⟨k, hn, -, hbefore⟩
        cases k with
        | zero =>
          rw [hn]
          rfl
        | succ k =>
          exfalso
          rcases hbefore 0 (by omega) with h | h
          · simp at h
          · simp at h
            exact hne h

/-- C15: over the reads of the pid file at ticks 1, 2, 3, ...,
`waitForPidToUpdate` returns at tick `k + 1` exactly when read number `k`
(counted from 0) is the first that succeeds with a content different from
`previousPid`, every earlier read having failed or given `previousPid`; it
is still polling after the given ticks exactly when each of them failed or gave
`previousPid`.  Contents are compared as they are, not as numbers. -/
theorem waitForPidToUpdate_returns_at_first_change (previousPid : GoString)
    (reads : List (Option GoString)) :
    (∀ k : Nat, waitForPidToUpdate previousPid reads = some (k + 1) ↔
      ((∃ cur : GoString, reads[k]? = some (some cur) ∧ cur ≠ previousPid) ∧
        ∀ j : Nat, j < k → reads[j]? = some none ∨ reads[j]? = some (some previousPid))) ∧
    (waitForPidToUpdate previousPid reads = none ↔
      ∀ read ∈ reads, read = none ∨ read = some previousPid) ∧
    waitForPidToUpdate "100".toList [none, none, some "200".toList] = some 3 ∧
    waitForPidToUpdate "100".toList [some "0100".toList] = some 1 := by
  refine ⟨?_, ?_, by decide, by decide⟩
  · intro k
    unfold waitForPidToUpdate
    rw [waitLoop_eq_some_iff]
    constructor
    · rintro ⟨k2, hn, hrest⟩
      have : k2 = k := by omega
      subst this
      exact hrest
    · intro h
      exact ⟨k, by omega, h⟩
  · unfold waitForPidToUpdate
    generalize 1 = tick
    induction reads generalizing tick with
    | nil => simp [waitLoop]
    | cons read rest ih =>
      by_cases hskip : read = none ∨ read = some previousPid
      · rw [waitLoop_skip previousPid tick read rest hskip, ih (tick + 1)]
        simp [hskip]
      · obtain ⟨cur, hread, hne⟩ : ∃ cur, read = some cur ∧ cur ≠ previousPid := by
          cases read with
          | none => exact absurd (Or.inl rfl) hskip
          | some cur =>
            refine ⟨cur, rfl, ?_⟩
            intro h
            exact hskip (Or.inr (by rw [h]))
        subst hread
        rw [waitLoop_stop previousPid tick cur rest hne]
        simp [hne]

/-! ## Theorems: first occurrence against last occurrence -/

/-- C17: the choice of the first occurrence can be observed.  On the pattern
`*foo*foo` and the candidate `foofoo`, `Glob` returns true and the matcher
that differs from it only in taking the last occurrence of each non-final
segment returns false. -/
theorem Glob_first_occurrence_observable :
    Glob "*foo*foo".toList "foofoo".toList = some true ∧
      GlobLast "*foo*foo".toList "foofoo".toList = some false ∧
      ∃ str : GoString, Glob "*foo*foo".toList str ≠ GlobLast "*foo*foo".toList str := by
  refine ⟨by decide, by decide, "foofoo".toList, by decide⟩

/-! ## Theorems: `replaceNonAlphabetAndNumbers` -/

theorem replaceAllNonAlnum_mem (s : GoString) :
    ∀ (inMatch : Bool) (c : Char), c ∈ replaceAllNonAlnum inMatch s →
      isAlphabetOrNumber c = true ∨ c = '_' := by
  induction s with
  | nil =>
    intro inMatch c h
    simp [replaceAllNonAlnum] at h
  | cons x xs ih =>
    intro inMatch c h
    unfold replaceAllNonAlnum at h
    by_cases hx : isAlphabetOrNumber x = true
    · rw [if_pos hx] at h
      rcases List.mem_cons.mp h with e | e
      · exact Or.inl (e ▸ hx)
      · exact ih false c e
    · rw [if_neg hx] at h
      cases inMatch with
      | true =>
        simp only [if_true] at h
        exact ih true c h
      | false =>
        simp only [Bool.false_eq_true, if_false] at h
        rcases List.mem_cons.mp h with e | e
        · exact Or.inr e
        · exact ih true c e

theorem replaceAllNonAlnum_filter (s : GoString) :
    ∀ inMatch : Bool, (replaceAllNonAlnum inMatch s).filter isAlphabetOrNumber =
      s.filter isAlphabetOrNumber := by
  induction s with
  | nil =>
    intro inMatch
    rfl
  | cons x xs ih =>
    intro inMatch
    unfold replaceAllNonAlnum
    by_cases hx : isAlphabetOrNumber x = true
    · rw [if_pos hx, List.filter_cons_of_pos hx, List.filter_cons_of_pos hx, ih false]
    · rw [if_neg hx, List.filter_cons_of_neg hx]
      cases inMatch with
      | true =>
        simp only [if_true]
        exact ih true
      | false =>
        simp only [Bool.false_eq_true, if_false]
        rw [List.filter_cons_of_neg (by decide), ih true]

/-- Inside a match the scan never starts its output with `_`, and its output
never has `_` next to `_`. -/
theorem replaceAllNonAlnum_chain (s : GoString) :
    (replaceAllNonAlnum true s).head? ≠ some '_' ∧
      List.Chain' (fun a b => ¬ (a = '_' ∧ b = '_')) (replaceAllNonAlnum true s) ∧
      List.Chain' (fun a b => ¬ (a = '_' ∧ b = '_')) (replaceAllNonAlnum false s) := by
  induction s with
  | nil => simp [replaceAllNonAlnum]
  | cons x xs ih =>
    obtain ⟨hhead, htrue, hfalse⟩ := ih
    by_cases hx : isAlphabetOrNumber x = true
    · have hne : x ≠ '_' := by
        intro e
        rw [e] at hx
        exact absurd hx (by decide)
      have hstep : ∀ m, replaceAllNonAlnum m (x :: xs) = x :: replaceAllNonAlnum false xs := by
        intro m
        rw [replaceAllNonAlnum, if_pos hx]
      rw [hstep true, hstep false]
      have hchain : List.Chain' (fun a b => ¬ (a = '_' ∧ b = '_'))
          (x :: replaceAllNonAlnum false xs) := by
        rw [List.chain'_cons']
        exact ⟨fun y _ h => hne h.1, hfalse⟩
      exact ⟨by simp [hne], hchain, hchain⟩
    · have htrue2 : replaceAllNonAlnum true (x :: xs) = replaceAllNonAlnum true xs := by
        rw [replaceAllNonAlnum, if_neg hx]
        rfl
      have hfalse2 : replaceAllNonAlnum false (x :: xs) = '_' :: replaceAllNonAlnum true xs := by
        rw [replaceAllNonAlnum, if_neg hx]
        rfl
      rw [htrue2, hfalse2]
      refine ⟨hhead, htrue, ?_⟩
      rw [List.chain'_cons']
      refine ⟨?_, htrue⟩
      intro y hy h
      apply hhead
      rw [Option.mem_def] at hy
      rw [hy, h.2]

/-- After a character of the class the scan is outside a match, whatever came
before: the output of a string that continues past such a character is the
output up to it followed by the output of the continuation. -/
theorem replaceAllNonAlnum_append (a : GoString) (c : Char) (x : GoString)
    (hc : isAlphabetOrNumber c = true) :
    ∀ inMatch : Bool, replaceAllNonAlnum inMatch (a ++ c :: x) =
      replaceAllNonAlnum inMatch (a ++ [c]) ++ replaceAllNonAlnum false x := by
  induction a with
  | nil =>
    intro inMatch
    simp [replaceAllNonAlnum, hc]
  | cons y ys ih =>
    intro inMatch
    rw [List.cons_append, List.cons_append, replaceAllNonAlnum, replaceAllNonAlnum]
    by_cases hy : isAlphabetOrNumber y = true
    · rw [if_pos hy, if_pos hy, ih false]
      rfl
    · rw [if_neg hy, if_neg hy]
      cases inMatch with
      | true =>
        simp only [if_true]
        exact ih true
      | false =>
        simp only [Bool.false_eq_true, if_false]
        rw [ih true]
        rfl

/-- A run of characters outside the class, met inside a match, writes nothing. -/
theorem replaceAllNonAlnum_run (run b : GoString)
    (hrun : ∀ x ∈ run, isAlphabetOrNumber x = false) :
    replaceAllNonAlnum true (run ++ b) = replaceAllNonAlnum true b := by
  induction run with
  | nil => rfl
  | cons y ys ih =>
    have hy : ¬ isAlphabetOrNumber y = true := by
      rw [hrun y (List.mem_cons_self _ _)]
      decide
    rw [List.cons_append, replaceAllNonAlnum, if_neg hy]
    simp only [if_true]
    exact ih (fun x hx => hrun x (List.mem_cons_of_mem _ hx))

/-- Before a character of the class, or at the end, it makes no difference
whether the scan is inside a match. -/
theorem replaceAllNonAlnum_true_eq_false (b : GoString)
    (hb : ∀ x, b.head? = some x → isAlphabetOrNumber x = true) :
    replaceAllNonAlnum true b = replaceAllNonAlnum false b := by
  cases b with
  | nil => rfl
  | cons y ys =>
    have hy : isAlphabetOrNumber y = true := hb y rfl
    rw [replaceAllNonAlnum, replaceAllNonAlnum, if_pos hy, if_pos hy]

/-- A maximal run of characters outside the class is replaced by one `_`. -/
theorem replaceAllNonAlnum_maximal_run (a run b : GoString)
    (ha : ∀ x, a.getLast? = some x → isAlphabetOrNumber x = true)
    (hne : run ≠ []) (hrun : ∀ x ∈ run, isAlphabetOrNumber x = false)
    (hb : ∀ x, b.head? = some x → isAlphabetOrNumber x = true) :
    replaceAllNonAlnum false (a ++ run ++ b) =
      replaceAllNonAlnum false a ++ '_' :: replaceAllNonAlnum false b := by
  have hmid : replaceAllNonAlnum false (run ++ b) = '_' :: replaceAllNonAlnum false b := by
    cases run with
    | nil => exact absurd rfl hne
    | cons y ys =>
      have hy : ¬ isAlphabetOrNumber y = true := by
        rw [hrun y (List.mem_cons_self _ _)]
        decide
      rw [List.cons_append, replaceAllNonAlnum, if_neg hy]
      simp only [Bool.false_eq_true, if_false]
      rw [replaceAllNonAlnum_run ys b (fun x hx => hrun x (List.mem_cons_of_mem _ hx)),
        replaceAllNonAlnum_true_eq_false b hb]
  rcases List.eq_nil_or_concat a with h | ⟨front, c, h⟩
  · subst h
    rw [List.nil_append, hmid]
    rfl
  · subst h
    have hc : isAlphabetOrNumber c = true := ha c (by simp)
    have h1 := replaceAllNonAlnum_append front c (run ++ b) hc false
    have h2 : front.concat c ++ run ++ b = front ++ c :: (run ++ b) := by simp
    rw [h2, h1, hmid, List.concat_eq_append]

/-- A string of characters of the class is left as it is. -/
theorem replaceAllNonAlnum_of_all (s : GoString)
    (h : ∀ x ∈ s, isAlphabetOrNumber x = true) :
    ∀ inMatch : Bool, replaceAllNonAlnum inMatch s = s := by
  induction s with
  | nil =>
    intro inMatch
    rfl
  | cons y ys ih =>
    intro inMatch
    rw [replaceAllNonAlnum, if_pos (h y (List.mem_cons_self _ _)),
      ih (fun x hx => h x (List.mem_cons_of_mem _ hx)) false]

/-- The letters and digits of the joined string are those of the strings. -/
theorem Join_filter (value : List GoString) :
    (Join value "_".toList).filter isAlphabetOrNumber =
      value.flatten.filter isAlphabetOrNumber := by
  induction value with
  | nil => rfl
  | cons e rest ih =>
    cases rest with
    | nil => simp [Join]
    | cons e2 rest2 =>
      have hsep : List.filter isAlphabetOrNumber "_".toList = [] := by decide
      have hjoin : Join (e :: e2 :: rest2) "_".toList =
          e ++ "_".toList ++ Join (e2 :: rest2) "_".toList := by
        rw [Join]
        simp
      rw [hjoin, List.filter_append, List.filter_append, ih, hsep, List.append_nil]
      have hflat : (e :: e2 :: rest2).flatten = e ++ (e2 :: rest2).flatten := rfl
      rw [hflat, List.filter_append]

/-- C20: `replaceNonAlphabetAndNumbers` joins the strings with `_` and replaces
each maximal run of characters outside `[A-Za-z0-9]` by one `_`.  The result
has only letters, digits and `_`, has no `_` next to another, and has the
letters and digits of the strings in their order; a joined string of letters
and digits only is returned as it is. -/
theorem replaceNonAlphabetAndNumbers_spec (value : List GoString) :
    (∀ c ∈ replaceNonAlphabetAndNumbers value, isAlphabetOrNumber c = true ∨ c = '_') ∧
    (∀ a b : GoString, replaceNonAlphabetAndNumbers value ≠ a ++ '_' :: '_' :: b) ∧
    (replaceNonAlphabetAndNumbers value).filter isAlphabetOrNumber =
      value.flatten.filter isAlphabetOrNumber ∧
    (∀ a run b : GoString, Join value "_".toList = a ++ run ++ b →
      (∀ x, a.getLast? = some x → isAlphabetOrNumber x = true) →
      run ≠ [] → (∀ x ∈ run, isAlphabetOrNumber x = false) →
      (∀ x, b.head? = some x → isAlphabetOrNumber x = true) →
      replaceNonAlphabetAndNumbers value =
        replaceAllNonAlnum false a ++ '_' :: replaceAllNonAlnum false b) ∧
    ((∀ x ∈ Join value "_".toList, isAlphabetOrNumber x = true) →
      replaceNonAlphabetAndNumbers value = Join value "_".toList) := by
  unfold replaceNonAlphabetAndNumbers
  refine ⟨?_, ?_, ?_, ?_, ?_⟩
  · intro c hc
    exact replaceAllNonAlnum_mem _ false c hc
  · intro a b h
    have hchain := (replaceAllNonAlnum_chain (Join value "_".toList)).2.2
    rw [h] at hchain
    have h2 : List.Chain' (fun a b => ¬ (a = '_' ∧ b = '_')) ('_' :: '_' :: b) :=
      (List.chain'_append.mp hchain).2.1
    rw [List.chain'_cons] at h2
    exact h2.1 ⟨rfl, rfl⟩
  · rw [replaceAllNonAlnum_filter, Join_filter]
  · intro a run b hjoin ha hne hrun hb
    rw [hjoin]
    exact replaceAllNonAlnum_maximal_run a run b ha hne hrun hb
  · intro h
    exact replaceAllNonAlnum_of_all _ h false

/-- The strings `a-b`, `c__d` and `!` give `a_b_c_d_`: the run `__` and the run
`_!`, which the joining `_` starts, each become one `_`. -/
theorem replaceNonAlphabetAndNumbers_example :
    replaceNonAlphabetAndNumbers ["a-b".toList, "c__d".toList, "!".toList] =
      "a_b_c_d_".toList := by
  decide

/-! ## Theorems: `Index` and the slices of `Glob` -/

/-- `Index` either reports `-1` and the substring occurs nowhere, or reports the
length of the text before an occurrence, and no occurrence starts earlier. -/
theorem Index_spec (s sub : GoString) :
    (Index s sub = -1 ∧ ∀ a b : GoString, s ≠ a ++ sub ++ b) ∨
      ∃ a b : GoString, s = a ++ sub ++ b ∧ Index s sub = (a.length : Int) ∧
        ∀ a2 b2 : GoString, s = a2 ++ sub ++ b2 → a.length ≤ a2.length := by
  induction s with
  | nil =>
    unfold Index
    by_cases h : sub.isPrefixOf [] = true
    · right
      have hsub : sub = [] := List.prefix_nil.mp (List.isPrefixOf_iff_prefix.mp h)
      subst hsub
      exact ⟨[], [], rfl, by simp, fun _ _ _ => Nat.zero_le _⟩
    · left
      refine ⟨by simp [h], ?_⟩
      intro a b hab
      apply h
      have h1 : a ++ sub ++ b = [] := hab.symm
      simp only [List.append_eq_nil] at h1
      rw [h1.1.2]
      rfl
  | cons c cs ih =>
    unfold Index
    by_cases h : sub.isPrefixOf (c :: cs) = true
    · right
      obtain ⟨t, ht⟩ := List.isPrefixOf_iff_prefix.mp h
      exact ⟨[], t, by simpa using ht.symm, by simp [h], fun _ _ _ => Nat.zero_le _⟩
    · have hno : ∀ b : GoString, c :: cs ≠ [] ++ sub ++ b := by
        intro b hb
        apply h
        rw [List.isPrefixOf_iff_prefix]
        exact ⟨b, by simpa using hb.symm⟩
      rcases ih with ⟨hidx, hnone⟩ | ⟨a, b, hab, hidx, hmin⟩
      · left
        refine ⟨by simp [h, hidx], ?_⟩
        intro a b hab
        cases a with
        | nil => exact hno b hab
        | cons x xs =>
          have h2 : cs = xs ++ sub ++ b := by
            have := List.tail_eq_of_cons_eq hab
            simpa using this
          exact hnone xs b h2
      · right
        refine ⟨c :: a, b, by rw [hab]; rfl, ?_, ?_⟩
        · have hneg : ¬ ((a.length : Int) < 0) := by omega
          simp only [h, hidx, hneg, if_false, List.length_cons]
          push_cast
          rfl
        · intro a2 b2 hab2
          cases a2 with
          | nil => exact absurd hab2 (hno b2)
          | cons x xs =>
            have h2 : cs = xs ++ sub ++ b2 := by
              have := List.tail_eq_of_cons_eq hab2
              simpa using this
            have := hmin xs b2 h2
            simp only [List.length_cons]
            omega

theorem Index_ge (s sub : GoString) : -1 ≤ Index s sub := by
  rcases Index_spec s sub with ⟨h, _⟩ | ⟨a, b, _, h, _⟩
  · omega
  · omega

/-- A substring that is found lies inside the string. -/
theorem Index_add_length_le (s sub : GoString) (h : 0 ≤ Index s sub) :
    Index s sub + (sub.length : Int) ≤ (s.length : Int) := by
  rcases Index_spec s sub with ⟨h1, _⟩ | ⟨a, b, hab, h1, _⟩
  · omega
  · have hlen := congrArg List.length hab
    simp only [List.length_append] at hlen
    omega

theorem Index_eq_zero_iff (s sub : GoString) : Index s sub = 0 ↔ sub <+: s := by
  constructor
  · intro h
    rcases Index_spec s sub with ⟨h1, _⟩ | ⟨a, b, hab, h1, _⟩
    · omega
    · have ha : a = [] := by
        apply List.length_eq_zero.mp
        omega
      subst ha
      exact ⟨b, by simpa using hab.symm⟩
  · rintro ⟨t, ht⟩
    rcases Index_spec s sub with ⟨_, hnone⟩ | ⟨a, b, hab, h1, hmin⟩
    · exact absurd (by simpa using ht.symm) (hnone [] t)
    · have := hmin [] t (by simpa using ht.symm)
      simp only [List.length_nil] at this
      omega

/-- The slice behind a found substring is in range. -/
theorem sliceFrom_of_found (s sub : GoString) (h : 0 ≤ Index s sub) :
    sliceFrom s (Index s sub + (sub.length : Int)) =
      some (s.drop (Index s sub + (sub.length : Int)).toNat) := by
  unfold sliceFrom
  have h1 := Index_add_length_le s sub h
  have h2 : 0 ≤ Index s sub + (sub.length : Int) := by omega
  simp [h1, h2]

/-! ## Theorems: the loop of `Glob` as a scan over the segments -/

/-- A pattern that starts with `*` has an empty first segment. -/
theorem Split_head_of_leading (pattern : GoString) (seg0 : GoString) (segs : List GoString)
    (hsplit : Split pattern '*' = seg0 :: segs)
    (hlead : HasPrefix pattern "*".toList = true) : seg0 = [] := by
  unfold HasPrefix at hlead
  obtain ⟨t, ht⟩ := List.isPrefixOf_iff_prefix.mp hlead
  have hp : pattern = '*' :: t := by simpa using ht.symm
  rw [hp, Split_cons_sep] at hsplit
  exact (List.cons.inj hsplit).1.symm

/-- A pattern that ends with `*` has an empty last segment. -/
theorem Split_getLast_of_trailing (pattern : GoString)
    (htrail : HasSuffix pattern "*".toList = true) :
    (Split pattern '*').getLast? = some [] := by
  unfold HasSuffix at htrail
  obtain ⟨q, hq⟩ := List.isSuffixOf_iff_suffix.mp htrail
  have hlastp : pattern.getLast? = some '*' := by
    rw [← hq]
    exact List.getLast?_concat q
  obtain ⟨l, hlast, hmem, hshape⟩ := Split_getLast pattern '*'
  rw [hlast]
  have hl : l = [] := by
    by_contra hne
    have hll : pattern.getLast? = l.getLast? := by
      rcases hshape with h1 | ⟨pre, h1⟩
      · rw [h1]
      · rw [h1]
        obtain ⟨front, x, hfx⟩ : ∃ front x, l = front ++ [x] := by
          rcases List.eq_nil_or_concat l with h | ⟨front, x, h⟩
          · exact absurd h hne
          · exact ⟨front, x, by rw [h, List.concat_eq_append]⟩
        rw [hfx]
        have : pre ++ '*' :: (front ++ [x]) = (pre ++ '*' :: front) ++ [x] := by simp
        rw [this, List.getLast?_concat, List.getLast?_concat]
    rw [hll] at hlastp
    exact hmem (List.mem_of_getLast?_eq_some hlastp)
  rw [hl]

/-- The first iteration of the loop: the first segment has to be a prefix of
the candidate, and the loop goes on behind it. -/
theorem globLoop_first_step (seg0 : GoString) (segs : List GoString) (leadingGlob : Bool)
    (remaining : Nat) (str : GoString) (hlead : leadingGlob = true → seg0 = []) :
    globLoop (seg0 :: segs) leadingGlob 0 (remaining + 1) str =
      if seg0.isPrefixOf str then
        globLoop (seg0 :: segs) leadingGlob 1 remaining (str.drop seg0.length)
      else .returnedFalse := by
  rw [globLoop]
  simp only [List.getElem?_cons_zero]
  by_cases hpre : seg0.isPrefixOf str = true
  · have hidx : Index str seg0 = 0 :=
      (Index_eq_zero_iff str seg0).mpr (List.isPrefixOf_iff_prefix.mp hpre)
    have hslice := sliceFrom_of_found str seg0 (by omega)
    rw [hidx] at hslice
    simp only [zero_add, Int.toNat_ofNat] at hslice
    simp only [hidx, hpre, ne_eq, not_true_eq_false, and_false, if_false, lt_self_iff_false,
      if_true, hslice, zero_add]
  · have hidx : Index str seg0 ≠ 0 := by
      intro h
      exact hpre (List.isPrefixOf_iff_prefix.mpr ((Index_eq_zero_iff str seg0).mp h))
    have hl : leadingGlob = false := by
      cases leadingGlob with
      | false => rfl
      | true =>
        exfalso
        apply hpre
        rw [hlead rfl]
        simp
    simp [hidx, hl, hpre]

/-- From the second iteration on, the loop followed by the final `return` is
the scan `greedyMatch` over the segments that are left. -/
theorem globLoop_eq_greedy (parts : List GoString) (leadingGlob trailingGlob : Bool)
    (htrail : trailingGlob = true → parts.getLast? = some []) (remaining : Nat) :
    ∀ (i : Nat) (str : GoString), 1 ≤ i → i + remaining + 1 = parts.length →
      globFinish parts trailingGlob (globLoop parts leadingGlob i remaining str) =
        some (greedyMatch (parts.drop i) str) := by
  induction remaining with
  | zero =>
    intro i str _ hlen
    have hi : i < parts.length := by omega
    have hdrop : parts.drop i = [parts[i]] := by
      rw [List.drop_eq_getElem_cons hi, List.drop_eq_nil_of_le (by omega)]
    have hget : parts[parts.length - 1]? = some parts[i] := by
      have : parts.length - 1 = i := by omega
      rw [this, List.getElem?_eq_getElem hi]
    rw [hdrop]
    simp only [globLoop, globFinish, hget, greedyMatch]
    cases htg : trailingGlob with
    | false => simp
    | true =>
      have h1 := htrail htg
      rw [List.getLast?_eq_getElem?, hget] at h1
      have h2 : parts[i] = [] := Option.some.inj h1
      rw [h2]
      simp [HasSuffix]
  | succ k ih =>
    intro i str hi hlen
    have hi1 : i < parts.length := by omega
    have hi2 : i + 1 < parts.length := by omega
    have hdrop : parts.drop i = parts[i] :: parts[i + 1] :: parts.drop (i + 1 + 1) := by
      rw [List.drop_eq_getElem_cons hi1, List.drop_eq_getElem_cons hi2]
    have hne : ¬ (i = 0 ∧ leadingGlob = false ∧ Index str parts[i] ≠ 0) := by
      intro h
      omega
    rw [hdrop, globLoop]
    simp only [List.getElem?_eq_getElem hi1, hne, if_false, greedyMatch]
    by_cases hidx : Index str parts[i] < 0
    · simp only [hidx, if_true, globFinish]
    · have hfound : 0 ≤ Index str parts[i] := by omega
      simp only [hidx, if_false, sliceFrom_of_found str parts[i] hfound]
      rw [ih (i + 1) _ (by omega) (by omega), List.drop_eq_getElem_cons hi2]

/-- `Glob` in one formula: the first segment is a prefix of the candidate and
the scan over the other segments accepts what follows it. -/
theorem Glob_eq_greedy (pattern str seg0 : GoString) (segs : List GoString)
    (hsplit : Split pattern '*' = seg0 :: segs) :
    Glob pattern str =
      some (seg0.isPrefixOf str && greedyMatch segs (str.drop seg0.length)) := by
  by_cases hstar : '*' ∈ pattern
  · by_cases hone : pattern = "*".toList
    · subst hone
      have h1 : seg0 = [] ∧ segs = [[]] := by
        have h2 : Split "*".toList '*' = [[], []] := by decide
        rw [h2] at hsplit
        exact ⟨(List.cons.inj hsplit).1.symm, (List.cons.inj hsplit).2.symm⟩
      rw [h1.1, h1.2]
      simp [Glob, greedyMatch, HasSuffix]
    · have h0 : ¬ pattern.length = 0 := by
        intro h
        rw [List.length_eq_zero.mp h] at hstar
        cases hstar
      have hlen := Split_length pattern '*'
      have hpos : 0 < pattern.count '*' := List.count_pos_iff.mpr hstar
      have h2 : ¬ (Split pattern '*').length = 1 := by omega
      have hglob : Glob pattern str =
          globFinish (Split pattern '*') (HasSuffix pattern "*".toList)
            (globLoop (Split pattern '*') (HasPrefix pattern "*".toList) 0
              ((Split pattern '*').length - 1) str) := by
        unfold Glob
        simp only [h0, hone, h2, if_false]
        unfold globFinish
        split <;> rfl
      rw [hglob, hsplit]
      have hsegs : (seg0 :: segs).length - 1 = (segs.length - 1) + 1 := by
        rw [hsplit] at hlen
        simp only [List.length_cons] at hlen ⊢
        omega
      rw [hsegs, globLoop_first_step seg0 segs _ _ str
        (fun h => Split_head_of_leading pattern seg0 segs hsplit h)]
      by_cases hpre : seg0.isPrefixOf str = true
      · rw [if_pos hpre, hpre, Bool.true_and]
        have hrest := globLoop_eq_greedy (seg0 :: segs) (HasPrefix pattern "*".toList)
          (HasSuffix pattern "*".toList)
          (fun h => by rw [← hsplit]; exact Split_getLast_of_trailing pattern h)
          (segs.length - 1) 1 (str.drop seg0.length) (le_refl 1) (by
            rw [hsplit] at hlen
            simp only [List.length_cons] at hlen ⊢
            omega)
        rw [hrest]
        rfl
      · rw [if_neg hpre]
        have hf : seg0.isPrefixOf str = false := by
          cases h : seg0.isPrefixOf str with
          | true => exact absurd h hpre
          | false => rfl
        rw [hf, Bool.false_and]
        rfl
  · have hp := Split_of_not_mem pattern '*' hstar
    rw [hp] at hsplit
    have h1 : seg0 = pattern := (List.cons.inj hsplit).1.symm
    have h2 : segs = [] := (List.cons.inj hsplit).2.symm
    subst h1
    subst h2
    have hglob : Glob seg0 str = some (decide (str = seg0)) := by
      unfold Glob
      by_cases h0 : seg0.length = 0
      · simp [h0]
      · have hne : seg0 ≠ ['*'] := by
          intro h
          apply hstar
          rw [h]
          decide
        simp [h0, hne, hp]
    rw [hglob, greedyMatch]
    congr 1
    by_cases heq : str = seg0
    · subst heq
      simp
    · have : ¬ (seg0 <+: str ∧ str.drop seg0.length = []) := by
        rintro ⟨⟨t, ht⟩, hd⟩
        rw [← ht, List.drop_left] at hd
        apply heq
        rw [← ht, hd, List.append_nil]
      rw [decide_eq_false heq]
      by_cases hpre : seg0.isPrefixOf str = true
      · have hd : ¬ (List.drop seg0.length str = []) :=
          fun hd => this ⟨List.isPrefixOf_iff_prefix.mp hpre, hd⟩
        rw [hpre, decide_eq_false hd]
        rfl
      · cases h : seg0.isPrefixOf str with
        | true => exact absurd h hpre
        | false => rfl

/-- A tail that matches stays a match when text is put in front of it, because
the first `*` takes that text up. -/
theorem StarMatch_append_left (seg : GoString) (segs : List GoString) (pre tail : GoString)
    (h : StarMatch (seg :: segs) tail) : StarMatch (seg :: segs) (pre ++ tail) := by
  obtain ⟨w, rest, htail, hrest⟩ := h
  exact ⟨pre ++ w, rest, by rw [htail]; simp, hrest⟩

/-- The scan with first occurrences accepts exactly the tails that match: no
other choice of occurrences accepts more. -/
theorem greedyMatch_iff_StarMatch (segs : List GoString) :
    ∀ str : GoString, greedyMatch segs str = true ↔ StarMatch segs str := by
  induction segs with
  | nil =>
    intro str
    simp [greedyMatch, StarMatch]
  | cons seg rest ih =>
    intro str
    cases rest with
    | nil =>
      simp only [greedyMatch, StarMatch, HasSuffix, List.isSuffixOf_iff_suffix]
      constructor
      · rintro ⟨w, hw⟩
        exact ⟨w, [], by rw [← hw]; simp, rfl⟩
      · rintro ⟨w, r, hstr, hr⟩
        exact ⟨w, by rw [hstr, hr]; simp⟩
    | cons seg2 more =>
      rw [greedyMatch]
      rcases Index_spec str seg with ⟨hidx, hnone⟩ | ⟨a, b, hab, hidx, hmin⟩
      · have hneg : Index str seg < 0 := by omega
        rw [if_pos hneg]
        constructor
        · intro h
          cases h
        · rintro ⟨w, r, hstr, _⟩
          exact absurd hstr (hnone w r)
      · have hfound : ¬ Index str seg < 0 := by omega
        have hdrop : str.drop (Index str seg + (seg.length : Int)).toNat = b := by
          have hn : (Index str seg + (seg.length : Int)).toNat = (a ++ seg).length := by
            rw [hidx, List.length_append]
            omega
          rw [hn, hab, List.drop_left]
        rw [if_neg hfound, hdrop, ih b]
        constructor
        · intro h
          exact ⟨a, b, hab, h⟩
        · rintro ⟨w, r, hstr, hr⟩
          have hle := hmin w r hstr
          have hb : b = (b.take (w.length - a.length)) ++ r := by
            have h1 : r = str.drop (w ++ seg).length := by
              rw [hstr, List.drop_left]
            have h2 : b = str.drop (a ++ seg).length := by
              rw [hab, List.drop_left]
            have h3 : r = b.drop (w.length - a.length) := by
              rw [h1, h2, List.drop_drop]
              congr 1
              simp only [List.length_append]
              omega
            rw [h3, List.take_append_drop]
          rw [hb]
          exact StarMatch_append_left seg2 more _ r hr

/-- Filling the wildcards of a pattern, told through its segments: the
candidate is the first segment followed by a tail that matches the others. -/
theorem WildcardMatch_iff_StarMatch (pattern : GoString) :
    ∀ str : GoString, WildcardMatch pattern str ↔
      ∃ (seg0 : GoString) (segs : List GoString), Split pattern '*' = seg0 :: segs ∧
        ∃ tail : GoString, str = seg0 ++ tail ∧ StarMatch segs tail := by
  induction pattern with
  | nil =>
    intro str
    unfold WildcardMatch
    constructor
    · rintro ⟨ws, _, hstr⟩
      exact ⟨[], [], rfl, [], by rw [hstr]; rfl, rfl⟩
    · rintro ⟨seg0, segs, hsplit, tail, hstr, hmatch⟩
      have h1 : seg0 = [] ∧ segs = [] := by
        have h2 : Split [] '*' = [[]] := rfl
        rw [h2] at hsplit
        exact ⟨(List.cons.inj hsplit).1.symm, (List.cons.inj hsplit).2.symm⟩
      rw [h1.2] at hmatch
      refine ⟨[], rfl, ?_⟩
      rw [hstr, h1.1, hmatch]
      rfl
  | cons c cs ih =>
    intro str
    by_cases hc : c = '*'
    · subst hc
      constructor
      · rintro ⟨ws, hlen, hstr⟩
        cases ws with
        | nil => simp at hlen
        | cons w ws2 =>
          have hfill : fillWildcards ('*' :: cs) (w :: ws2) = w ++ fillWildcards cs ws2 := by
            simp [fillWildcards]
          obtain ⟨s0, ss, hsplit, tail, htail, hmatch⟩ :=
            (ih (fillWildcards cs ws2)).mp ⟨ws2, by simpa using hlen, rfl⟩
          refine ⟨[], s0 :: ss, by rw [Split_cons_sep, hsplit], str, rfl, ?_⟩
          exact ⟨w, tail, by rw [hstr, hfill, htail]; simp, hmatch⟩
      · rintro ⟨seg0, segs, hsplit, tail, hstr, hmatch⟩
        rw [Split_cons_sep] at hsplit
        have h0 : seg0 = [] := (List.cons.inj hsplit).1.symm
        have hs : segs = Split cs '*' := (List.cons.inj hsplit).2.symm
        obtain ⟨s0, ss, hcs⟩ : ∃ s0 ss, Split cs '*' = s0 :: ss := by
          cases h : Split cs '*' with
          | nil => exact absurd h (Split_ne_nil cs '*')
          | cons s0 ss => exact ⟨s0, ss, rfl⟩
        rw [hs, hcs] at hmatch
        obtain ⟨w, rest, htail, hrest⟩ := hmatch
        obtain ⟨ws2, hlen2, hfill2⟩ := (ih (s0 ++ rest)).mpr ⟨s0, ss, hcs, rest, rfl, hrest⟩
        refine ⟨w :: ws2, by simp [hlen2], ?_⟩
        have hfill : fillWildcards ('*' :: cs) (w :: ws2) = w ++ fillWildcards cs ws2 := by
          simp [fillWildcards]
        rw [hfill, ← hfill2, hstr, h0, htail]
        simp
    · obtain ⟨piece, pieces, hcs, hall⟩ := Split_cons_ne c cs '*' hc
      have hfill : ∀ ws, fillWildcards (c :: cs) ws = c :: fillWildcards cs ws := by
        intro ws
        cases ws <;> simp [fillWildcards, hc]
      have hcount : (c :: cs).count '*' = cs.count '*' :=
        List.count_cons_of_ne (fun e => hc e.symm) cs
      constructor
      · rintro ⟨ws, hlen, hstr⟩
        obtain ⟨s0, ss, hsplit, tail, htail, hmatch⟩ :=
          (ih (fillWildcards cs ws)).mp ⟨ws, by rw [hlen, hcount], rfl⟩
        rw [hcs] at hsplit
        have h1 : s0 = piece := (List.cons.inj hsplit).1.symm
        have h2 : ss = pieces := (List.cons.inj hsplit).2.symm
        refine ⟨c :: piece, pieces, hall, tail, ?_, h2 ▸ hmatch⟩
        rw [hstr, hfill, htail, h1]
        rfl
      · rintro ⟨seg0, segs, hsplit, tail, hstr, hmatch⟩
        rw [hall] at hsplit
        have h1 : seg0 = c :: piece := (List.cons.inj hsplit).1.symm
        have h2 : segs = pieces := (List.cons.inj hsplit).2.symm
        obtain ⟨ws, hlen, hfill2⟩ :=
          (ih (piece ++ tail)).mpr ⟨piece, pieces, hcs, tail, rfl, h2 ▸ hmatch⟩
        refine ⟨ws, by rw [hlen, hcount], ?_⟩
        rw [hfill, ← hfill2, hstr, h1]
        rfl

/-- `Glob` accepts a candidate exactly when the candidate is the pattern with
each `*` replaced by some string. -/
theorem Glob_eq_true_iff (pattern str : GoString) :
    Glob pattern str = some true ↔ WildcardMatch pattern str := by
  obtain ⟨seg0, segs, hsplit⟩ : ∃ seg0 segs, Split pattern '*' = seg0 :: segs := by
    cases h : Split pattern '*' with
    | nil => exact absurd h (Split_ne_nil pattern '*')
    | cons s0 ss => exact ⟨s0, ss, rfl⟩
  rw [Glob_eq_greedy pattern str seg0 segs hsplit, WildcardMatch_iff_StarMatch]
  constructor
  · intro h
    have h1 : (seg0.isPrefixOf str && greedyMatch segs (str.drop seg0.length)) = true :=
      Option.some.inj h
    rw [Bool.and_eq_true] at h1
    obtain ⟨t, ht⟩ := List.isPrefixOf_iff_prefix.mp h1.1
    refine ⟨seg0, segs, hsplit, t, ht.symm, ?_⟩
    have h2 := (greedyMatch_iff_StarMatch segs _).mp h1.2
    rw [← ht, List.drop_left] at h2
    exact h2
  · rintro ⟨s0, ss, hsplit2, tail, hstr, hmatch⟩
    rw [hsplit] at hsplit2
    have h1 : seg0 = s0 := (List.cons.inj hsplit2).1
    have h2 : segs = ss := (List.cons.inj hsplit2).2
    subst h1
    subst h2
    have hpre : seg0.isPrefixOf str = true :=
      List.isPrefixOf_iff_prefix.mpr ⟨tail, hstr.symm⟩
    have hg : greedyMatch segs (str.drop seg0.length) = true := by
      rw [hstr, List.drop_left]
      exact (greedyMatch_iff_StarMatch segs tail).mpr hmatch
    rw [hpre, hg]
    rfl

/-- `Glob` returns a value on every pattern and candidate. -/
theorem Glob_isSome (pattern str : GoString) : ∃ b : Bool, Glob pattern str = some b := by
  obtain ⟨seg0, segs, hsplit⟩ : ∃ seg0 segs, Split pattern '*' = seg0 :: segs := by
    cases h : Split pattern '*' with
    | nil => exact absurd h (Split_ne_nil pattern '*')
    | cons s0 ss => exact ⟨s0, ss, rfl⟩
  exact ⟨_, Glob_eq_greedy pattern str seg0 segs hsplit⟩

theorem Split_append_sep (l t : GoString) (sep : Char) (hl : sep ∉ l) :
    Split (l ++ sep :: t) sep = l :: Split t sep := by
  induction l with
  | nil => exact Split_cons_sep t sep
  | cons x xs ih =>
    have hx : x ≠ sep := fun e => hl (e ▸ List.mem_cons_self _ _)
    have hxs : sep ∉ xs := fun h => hl (List.mem_cons_of_mem _ h)
    obtain ⟨piece, pieces, hcs, hall⟩ := Split_cons_ne x (xs ++ sep :: t) sep hx
    rw [ih hxs] at hcs
    rw [List.cons_append, hall, ← (List.cons.inj hcs).1, ← (List.cons.inj hcs).2]

theorem fillWildcards_replicate_nil (pattern : GoString) :
    ∀ n : Nat, fillWildcards pattern (List.replicate n []) =
      pattern.filter (fun c => decide (c ≠ '*')) := by
  induction pattern with
  | nil =>
    intro n
    rfl
  | cons c cs ih =>
    intro n
    by_cases hc : c = '*'
    · subst hc
      cases n with
      | zero =>
        have := ih 0
        simp only [List.replicate_zero] at this
        simp [fillWildcards, this]
      | succ k =>
        simp [fillWildcards, List.replicate_succ, ih k]
    · cases n with
      | zero =>
        have := ih 0
        simp only [List.replicate_zero] at this
        simp [fillWildcards, hc, this]
      | succ k =>
        have := ih (k + 1)
        simp only [List.replicate_succ] at this
        simp [fillWildcards, hc, List.replicate_succ, this]

/-- C11: for a literal `l` without `*`, the pattern `l*` accepts exactly the
candidates that start with `l`: it accepts `l` followed by any text, the empty
text included, and it rejects a candidate that does not start with `l`, also
when `l` occurs later in it. -/
theorem Glob_prefix_pattern (l s : GoString) (hl : '*' ∉ l) :
    Glob (l ++ "*".toList) s = some (l.isPrefixOf s) ∧
      (Glob (l ++ "*".toList) s = some true ↔ ∃ t : GoString, s = l ++ t) ∧
      (∀ t : GoString, Glob (l ++ "*".toList) (l ++ t) = some true) ∧
      ((¬ ∃ t : GoString, s = l ++ t) → Glob (l ++ "*".toList) s = some false) := by
  have hsplit : Split (l ++ "*".toList) '*' = [l, []] := by
    exact Split_append_sep l [] '*' hl
  have hmain : ∀ cand : GoString, Glob (l ++ "*".toList) cand = some (l.isPrefixOf cand) := by
    intro cand
    rw [Glob_eq_greedy _ cand l [[]] hsplit]
    simp [greedyMatch, HasSuffix]
  have hiff : ∀ cand : GoString, l.isPrefixOf cand = true ↔ ∃ t : GoString, cand = l ++ t := by
    intro cand
    rw [List.isPrefixOf_iff_prefix]
    constructor
    · rintro ⟨t, ht⟩
      exact ⟨t, ht.symm⟩
    · rintro ⟨t, ht⟩
      exact ⟨t, ht.symm⟩
  refine ⟨hmain s, ?_, ?_, ?_⟩
  · rw [hmain s, ← hiff s]
    simp
  · intro t
    rw [hmain (l ++ t), (hiff (l ++ t)).mpr ⟨t, rfl⟩]
  · intro hno
    rw [hmain s]
    cases h : l.isPrefixOf s with
    | false => rfl
    | true => exact absurd ((hiff s).mp h) hno

/-- Witness for C11: the pattern `a*` accepts `abc`. -/
theorem Glob_prefix_pattern_witness :
    Glob ("a".toList ++ "*".toList) ("a".toList ++ "bc".toList) = some true :=
  (Glob_prefix_pattern "a".toList ("a".toList ++ "bc".toList) (by decide)).2.2.1 "bc".toList

/-- The pattern `a*` rejects `ba`, in which `a` occurs but not at the start. -/
theorem Glob_prefix_pattern_rejects_later_occurrence :
    Glob "a*".toList "ba".toList = some false := by
  decide

/-- C12: a wildcard may stand for the empty string: every pattern accepts the
candidate that is the pattern with each `*` removed.  The pattern `a*c` accepts
`ac`, and `abc` as well. -/
theorem Glob_accepts_pattern_without_stars (pattern : GoString) :
    Glob pattern (pattern.filter (fun c => decide (c ≠ '*'))) = some true ∧
      Glob "a*c".toList "ac".toList = some true ∧
      Glob "a*c".toList "abc".toList = some true := by
  refine ⟨?_, by decide, by decide⟩
  rw [Glob_eq_true_iff]
  exact ⟨List.replicate (pattern.count '*') [], by simp,
    (fillWildcards_replicate_nil pattern _).symm⟩

/-- C16: the scan of `Glob` with first occurrences is sound and complete.
`Glob` accepts a candidate if and only if the candidate is the pattern with
each `*` replaced by some string, possibly empty; told through the segments
of the pattern split on `*`, if and only if the candidate is the first segment
followed, for each further segment in turn, by some string and that segment.
On every other candidate `Glob` returns false. -/
theorem Glob_sound_and_complete (pattern str : GoString) :
    (Glob pattern str = some true ↔
      ∃ ws : List GoString, ws.length = pattern.count '*' ∧
        str = fillWildcards pattern ws) ∧
    (Glob pattern str = some true ↔
      ∃ (seg0 : GoString) (segs : List GoString), Split pattern '*' = seg0 :: segs ∧
        ∃ tail : GoString, str = seg0 ++ tail ∧ StarMatch segs tail) ∧
    (Glob pattern str = some false ↔
      ¬ ∃ ws : List GoString, ws.length = pattern.count '*' ∧
        str = fillWildcards pattern ws) := by
  have h1 := Glob_eq_true_iff pattern str
  refine ⟨h1, ?_, ?_⟩
  · rw [h1]
    exact WildcardMatch_iff_StarMatch pattern str
  · obtain ⟨b, hb⟩ := Glob_isSome pattern str
    constructor
    · intro hf hm
      have ht := h1.mpr hm
      rw [hf] at ht
      cases ht
    · intro hno
      cases b with
      | false => exact hb
      | true => exact absurd (h1.mp hb) hno

/-! ## Theorems: `Glob` never fails -/

/-- The loop of `Glob`, run on indexes that lie inside `parts`: every slice it
reaches is in range, it handles the indexes `i`, `i + 1`, ... one after the
other, it does not fail, and it runs to its end exactly when it has made all
its `remaining` iterations. -/
theorem globLoopSlices_spec (parts : List GoString) (leadingGlob : Bool) (remaining : Nat) :
    ∀ (i : Nat) (str : GoString), i + remaining ≤ parts.length →
      (∀ st ∈ globLoopSlices parts leadingGlob i remaining str,
        0 ≤ st.idx ∧ st.idx + (st.partLen : Int) ≤ (st.strLen : Int)) ∧
      (globLoopSlices parts leadingGlob i remaining str).map (fun st => st.i) =
        List.range' i (globLoopSlices parts leadingGlob i remaining str).length ∧
      (globLoopSlices parts leadingGlob i remaining str).length ≤ remaining ∧
      globLoop parts leadingGlob i remaining str ≠ .failed ∧
      ((∃ rest, globLoop parts leadingGlob i remaining str = .finished rest) ↔
        (globLoopSlices parts leadingGlob i remaining str).length = remaining) := by
  induction remaining with
  | zero =>
    intro i str _
    simp [globLoopSlices, globLoop]
  | succ k ih =>
    intro i str hle
    have hi : i < parts.length := by omega
    rw [globLoopSlices, globLoop]
    simp only [List.getElem?_eq_getElem hi]
    by_cases hfirst : i = 0 ∧ leadingGlob = false ∧ Index str parts[i] ≠ 0
    · simp only [if_pos hfirst]
      simp
    · simp only [hfirst, if_false]
      by_cases hidx : Index str parts[i] < 0
      · simp only [if_pos hidx]
        simp
      · have hfound : 0 ≤ Index str parts[i] := by omega
        have hbound := Index_add_length_le str parts[i] hfound
        obtain ⟨hin, hmap, hlen, hnofail, hfin⟩ :=
          ih (i + 1) (str.drop (Index str parts[i] + (parts[i].length : Int)).toNat) (by omega)
        simp only [hidx, if_false, sliceFrom_of_found str parts[i] hfound]
        refine ⟨?_, ?_, ?_, hnofail, ?_⟩
        · intro st hst
          rcases List.mem_cons.mp hst with e | e
          · subst e
            exact ⟨hfound, hbound⟩
          · exact hin st e
        · rw [List.map_cons, List.length_cons, List.range'_succ, hmap]
        · rw [List.length_cons]
          omega
        · rw [hfin, List.length_cons]
          omega

/-- C18: `Glob` returns a value on every pattern and candidate.  In its loop,
started at index 0 with one iteration for each segment but the last, every
slice `str[idx+len(parts[i]):]` that is reached has `0 ≤ idx` and
`idx + len(parts[i]) ≤ len(str)`; the iterations handle the segments 0, 1, 2,
... once each; there are as many segments before the last as the pattern has
`*`; and the loop, which never fails, runs to its end exactly when it has made
one iteration for each of them (otherwise it ended with `return false`). -/
theorem Glob_total_and_slices_in_range (pattern str : GoString) :
    (∃ b : Bool, Glob pattern str = some b) ∧
    (∀ st ∈ globLoopSlices (Split pattern '*') (HasPrefix pattern "*".toList) 0
        ((Split pattern '*').length - 1) str,
      0 ≤ st.idx ∧ st.idx + (st.partLen : Int) ≤ (st.strLen : Int)) ∧
    (globLoopSlices (Split pattern '*') (HasPrefix pattern "*".toList) 0
        ((Split pattern '*').length - 1) str).map (fun st => st.i) =
      List.range (globLoopSlices (Split pattern '*') (HasPrefix pattern "*".toList) 0
        ((Split pattern '*').length - 1) str).length ∧
    (Split pattern '*').length - 1 = pattern.count '*' ∧
    (globLoopSlices (Split pattern '*') (HasPrefix pattern "*".toList) 0
        ((Split pattern '*').length - 1) str).length ≤ pattern.count '*' ∧
    globLoop (Split pattern '*') (HasPrefix pattern "*".toList) 0
        ((Split pattern '*').length - 1) str ≠ .failed ∧
    ((∃ rest, globLoop (Split pattern '*') (HasPrefix pattern "*".toList) 0
        ((Split pattern '*').length - 1) str = .finished rest) ↔
      (globLoopSlices (Split pattern '*') (HasPrefix pattern "*".toList) 0
        ((Split pattern '*').length - 1) str).length = pattern.count '*') := by
  have hcount : (Split pattern '*').length - 1 = pattern.count '*' := by
    rw [Split_length]
    omega
  obtain ⟨hin, hmap, hlen, hnofail, hfin⟩ :=
    globLoopSlices_spec (Split pattern '*') (HasPrefix pattern "*".toList)
      ((Split pattern '*').length - 1) 0 str (by omega)
  refine ⟨Glob_isSome pattern str, hin, ?_, hcount, ?_, hnofail, ?_⟩
  · rw [hmap, List.range_eq_range']
  · rw [← hcount]
    exact hlen
  · rw [hfin, hcount]

/-- On the pattern `a*b*c` and the candidate `axxbyyc` the loop reaches two
slices: `str[1:]` of the whole candidate and `str[3:]` of `xxbyyc`. -/
theorem globLoopSlices_example :
    globLoopSlices (Split "a*b*c".toList '*') (HasPrefix "a*b*c".toList "*".toList) 0 2
        "axxbyyc".toList =
      [⟨0, 0, 1, 7⟩, ⟨1, 2, 1, 6⟩] := by
  decide

end Proxy
